import Mathlib

/-!
Verification of the distributed bitonic sort implementation
(`src/MPI/bitonicMPI_fixed.c`, with the verifier loop of
`src/Extra/bitonicMPI.c`).

The C program is shallowly embedded: arrays of `int` become `List ℤ`,
in-place mutation becomes functional update, and the MPI process state
(one partition per rank) becomes a `List (List ℤ)` indexed by rank.
C `int` arithmetic never overflows on the inputs the claims quantify
over, so machine integers are modelled by unbounded `ℤ`/`ℕ`; the value
`INT_MAX` used as the padding sentinel is the literal `2147483647`.
-/

namespace BitonicMPI

/-- Embedding of the two-pointer merge loop inside `merge_and_select`
(`bitonicMPI_fixed.c:59-65`): while both runs are nonempty take
`a[i]` when `a[i] <= b[j]`, else `b[j]`; then copy the leftovers. -/
def mergeLists : List ℤ → List ℤ → List ℤ
  | [], b => b
  | a, [] => a
  | x :: a, y :: b =>
    if x ≤ y then x :: mergeLists a (y :: b) else y :: mergeLists (x :: a) b
termination_by a b => a.length + b.length

/-- `merge_and_select` (`bitonicMPI_fixed.c:56-72`): merge the two
length-`len` sorted runs into `tmp` (of length `2*len`) and keep the
low half (`memcpy(dst, tmp, ...)`) or the high half
(`memcpy(dst, tmp + len, ...)`).  In the program both inputs have
length exactly `len`. -/
def merge_and_select (a b : List ℤ) (len : ℕ) (keep_low : Bool) : List ℤ :=
  let tmp := mergeLists a b
  if keep_low then tmp.take len else tmp.drop len

@[simp] theorem mergeLists_nil_left (b : List ℤ) : mergeLists [] b = b := by
  cases b <;> simp [mergeLists]

@[simp] theorem mergeLists_nil_right (a : List ℤ) : mergeLists a [] = a := by
  cases a <;> simp [mergeLists]

theorem mergeLists_cons_cons (x y : ℤ) (a b : List ℤ) :
    mergeLists (x :: a) (y :: b) =
      if x ≤ y then x :: mergeLists a (y :: b) else y :: mergeLists (x :: a) b := by
  simp [mergeLists]

/-- The merge is a permutation of the concatenation of its inputs. -/
theorem mergeLists_perm (a b : List ℤ) : List.Perm (mergeLists a b) (a ++ b) := by
  induction a generalizing b with
  | nil => simp
  | cons x a iha =>
    induction b with
    | nil => simp
    | cons y b ihb =>
      rw [mergeLists_cons_cons]
      by_cases h : x ≤ y
      · simpa [h] using (iha (y :: b)).cons x
      · simp only [h, if_false]
        refine (ihb.cons y).trans ?_
        exact (@List.perm_middle ℤ y (x :: a) b).symm

theorem mergeLists_length (a b : List ℤ) :
    (mergeLists a b).length = a.length + b.length := by
  simpa using (mergeLists_perm a b).length_eq

/-- Merging two `≤`-sorted runs yields a `≤`-sorted run. -/
theorem mergeLists_sorted {a b : List ℤ} (ha : a.Sorted (· ≤ ·))
    (hb : b.Sorted (· ≤ ·)) : (mergeLists a b).Sorted (· ≤ ·) := by
  induction a generalizing b with
  | nil => simpa using hb
  | cons x a iha =>
    induction b with
    | nil => simpa using ha
    | cons y b ihb =>
      rw [mergeLists_cons_cons]
      by_cases h : x ≤ y
      · simp only [h, if_true]
        rw [List.sorted_cons]
        constructor
        · intro z hz
          have hz' : z ∈ a ++ (y :: b) := (mergeLists_perm a (y :: b)).mem_iff.mp hz
          rcases List.mem_append.mp hz' with hz' | hz'
          · exact (List.sorted_cons.mp ha).1 z hz'
          · rcases hz' with _ | hz'
            · exact h
            · exact le_trans h ((List.sorted_cons.mp hb).1 z (by assumption))
        · exact iha (List.sorted_cons.mp ha).2 hb
      · simp only [h, if_false]
        rw [List.sorted_cons]
        constructor
        · intro z hz
          have hy : y ≤ x := le_of_lt (lt_of_not_le h)
          have hz' : z ∈ (x :: a) ++ b := (mergeLists_perm (x :: a) b).mem_iff.mp hz
          rcases List.mem_append.mp hz' with hz' | hz'
          · rcases hz' with _ | hz'
            · exact hy
            · exact le_trans hy ((List.sorted_cons.mp ha).1 z (by assumption))
          · exact (List.sorted_cons.mp hb).1 z hz'
        · exact ihb (List.sorted_cons.mp hb).2

/-- On sorted inputs the merge is the canonical sorted arrangement of
the combined multiset, so it does not depend on the argument order. -/
theorem mergeLists_comm {a b : List ℤ} (ha : a.Sorted (· ≤ ·))
    (hb : b.Sorted (· ≤ ·)) : mergeLists a b = mergeLists b a := by
  refine List.eq_of_perm_of_sorted ?_ (mergeLists_sorted ha hb) (mergeLists_sorted hb ha)
  exact (mergeLists_perm a b).trans ((List.perm_append_comm).trans (mergeLists_perm b a).symm)

/-- On sorted inputs the merge equals insertion sort of the concatenation
(the canonical sorted enumeration of the combined multiset). -/
theorem mergeLists_eq_insertionSort {a b : List ℤ} (ha : a.Sorted (· ≤ ·))
    (hb : b.Sorted (· ≤ ·)) :
    mergeLists a b = List.insertionSort (· ≤ ·) (a ++ b) := by
  refine List.eq_of_perm_of_sorted ?_ (mergeLists_sorted ha hb)
    (List.sorted_insertionSort (· ≤ ·) (a ++ b))
  exact (mergeLists_perm a b).trans (List.perm_insertionSort (· ≤ ·) (a ++ b)).symm

theorem sorted_take {l : List ℤ} (h : l.Sorted (· ≤ ·)) (t : ℕ) :
    (l.take t).Sorted (· ≤ ·) :=
  h.sublist (List.take_sublist t l)

theorem sorted_drop {l : List ℤ} (h : l.Sorted (· ≤ ·)) (t : ℕ) :
    (l.drop t).Sorted (· ≤ ·) :=
  h.sublist (List.drop_sublist t l)

theorem merge_and_select_sorted {a b : List ℤ} (ha : a.Sorted (· ≤ ·))
    (hb : b.Sorted (· ≤ ·)) (len : ℕ) (kl : Bool) :
    (merge_and_select a b len kl).Sorted (· ≤ ·) := by
  unfold merge_and_select
  cases kl with
  | false => exact sorted_drop (mergeLists_sorted ha hb) len
  | true => exact sorted_take (mergeLists_sorted ha hb) len

theorem merge_and_select_length {a b : List ℤ} {len : ℕ}
    (hla : a.length = len) (hlb : b.length = len) (kl : Bool) :
    (merge_and_select a b len kl).length = len := by
  unfold merge_and_select
  cases kl <;> simp [mergeLists_length, hla, hlb]

/-! ### Partition sizer (`next_power_of_two`, `is_power_of_two`, padding loop) -/

/-- The loop `while (p < n) p <<= 1;` of `next_power_of_two`
(`bitonicMPI_fixed.c:46-47`).  The C loop terminates because `p`
doubles from `1`; that is expressed by running it on `fuel` steps,
with `fuel = n` always sufficient (`np2Loop_adequate`). -/
def np2Loop : ℕ → ℕ → ℕ → ℕ
  | 0, p, _ => p
  | fuel + 1, p, n => if p < n then np2Loop fuel (2 * p) n else p

/-- `next_power_of_two` (`bitonicMPI_fixed.c:44-49`): `1` for
non-positive `n` (non-positivity of the C `int` is `n = 0` in ℕ),
otherwise the doubling loop starting from `p = 1`. -/
def next_power_of_two (n : ℕ) : ℕ :=
  if n = 0 then 1 else np2Loop n 1 n

/-- `is_power_of_two` (`bitonicMPI_fixed.c:51-53`):
`x > 0 && ((x & (x - 1)) == 0)`. -/
def is_power_of_two (x : ℕ) : Bool :=
  decide (0 < x) && decide (x &&& (x - 1) = 0)

/-- The padding loop `while (N % size != 0) N <<= 1;`
(`bitonicMPI_fixed.c:102`), again with explicit fuel; `fuel = P`
suffices whenever `P` is a power of two (`totalSizeOf_spec`). -/
def padLoop : ℕ → ℕ → ℕ → ℕ
  | 0, N, _ => N
  | fuel + 1, N, P => if N % P ≠ 0 then padLoop fuel (2 * N) P else N

/-- `N` as computed by `main` (`bitonicMPI_fixed.c:101-102`):
`next_power_of_two n` doubled until divisible by the process count. -/
def totalSizeOf (n P : ℕ) : ℕ :=
  padLoop P (next_power_of_two n) P

/-- `local_size = N / size` (`bitonicMPI_fixed.c:104`). -/
def localSizeOf (n P : ℕ) : ℕ :=
  totalSizeOf n P / P

theorem np2Loop_pow (fuel b n : ℕ) : ∃ a, np2Loop fuel (2 ^ b) n = 2 ^ a := by
  induction fuel generalizing b with
  | zero => exact ⟨b, rfl⟩
  | succ fuel ih =>
    unfold np2Loop
    by_cases h : 2 ^ b < n
    · simpa [h, ← pow_succ'] using ih (b + 1)
    · exact ⟨b, by simp [h]⟩

theorem np2Loop_ge (fuel p n : ℕ) (h : n ≤ p * 2 ^ fuel) : n ≤ np2Loop fuel p n := by
  induction fuel generalizing p with
  | zero => simpa using h
  | succ fuel ih =>
    unfold np2Loop
    by_cases hp : p < n
    · simp only [hp, if_true]
      refine ih (2 * p) ?_
      calc n ≤ p * 2 ^ (fuel + 1) := h
        _ = 2 * p * 2 ^ fuel := by ring
    · simpa [hp] using le_of_not_lt hp

theorem np2Loop_min (fuel b c n : ℕ) (hbc : b ≤ c) (hn : n ≤ 2 ^ c) :
    np2Loop fuel (2 ^ b) n ≤ 2 ^ c := by
  induction fuel generalizing b with
  | zero => exact Nat.pow_le_pow_right (by norm_num) hbc
  | succ fuel ih =>
    unfold np2Loop
    by_cases h : 2 ^ b < n
    · have hbc' : b + 1 ≤ c := by
        by_contra hbc2
        have hcb : c = b := by omega
        subst hcb
        exact absurd hn (not_le_of_lt h)
      simpa [h, ← pow_succ'] using ih (b + 1) hbc'
    · simpa [h] using Nat.pow_le_pow_right (by norm_num) hbc

theorem next_power_of_two_spec (n : ℕ) :
    (∃ a, next_power_of_two n = 2 ^ a) ∧ n ≤ next_power_of_two n ∧
      ∀ c, n ≤ 2 ^ c → next_power_of_two n ≤ 2 ^ c := by
  unfold next_power_of_two
  by_cases h : n = 0
  · subst h
    refine ⟨⟨0, by simp⟩, by simp, fun c _ => Nat.two_pow_pos c⟩
  · simp only [h, if_false]
    refine ⟨by simpa using np2Loop_pow n 0 n,
      np2Loop_ge n 1 n (by simpa using Nat.le_of_lt (Nat.lt_two_pow n)), ?_⟩
    intro c hc
    simpa using np2Loop_min n 0 c n (Nat.zero_le c) hc

theorem pow_mod_pow_eq_zero_iff {a m : ℕ} : 2 ^ a % 2 ^ m = 0 ↔ m ≤ a := by
  rw [← Nat.dvd_iff_mod_eq_zero]
  constructor
  · intro h
    by_contra hma
    have h2 : 2 ^ a < 2 ^ m := Nat.pow_lt_pow_right one_lt_two (by omega)
    have h3 : 2 ^ m ≤ 2 ^ a := Nat.le_of_dvd (Nat.two_pow_pos a) h
    omega
  · intro h
    exact pow_dvd_pow 2 h

theorem padLoop_pow_spec (fuel a m : ℕ) (h : m ≤ a + fuel) :
    padLoop fuel (2 ^ a) (2 ^ m) = 2 ^ max a m := by
  induction fuel generalizing a with
  | zero =>
    have hm : max a m = a := max_eq_left (by omega)
    simp [padLoop, hm]
  | succ fuel ih =>
    unfold padLoop
    by_cases hd : 2 ^ a % 2 ^ m = 0
    · have hma : m ≤ a := pow_mod_pow_eq_zero_iff.mp hd
      simp [hd, max_eq_left hma]
    · have hma : a < m := by
        rcases lt_or_le a m with h2 | h2
        · exact h2
        · exact absurd (pow_mod_pow_eq_zero_iff.mpr h2) hd
      have hstep := ih (a + 1) (by omega)
      rw [pow_succ'] at hstep
      simp only [hd, ne_eq, not_false_iff, if_true, hstep]
      congr 1
      omega

/-! ### Verifier (`verify_sorted`, and the first-error scan of
`src/Extra/bitonicMPI.c:158-170`) -/

/-- One step of the scan `for (i = 1; i < n; ++i) if (g[i-1] > g[i]) return 0;`
of `verify_sorted` (`bitonicMPI_fixed.c:75-78`), starting at index `i`. -/
def verifyFrom (g : List ℤ) (n i : ℕ) : Bool :=
  if i < n then
    if g.getD (i - 1) 0 > g.getD i 0 then false else verifyFrom g n (i + 1)
  else true
termination_by n - i

/-- `verify_sorted` (`bitonicMPI_fixed.c:75-78`). -/
def verify_sorted (g : List ℤ) (n : ℕ) : Bool :=
  verifyFrom g n 1

/-- The first-error scan of `src/Extra/bitonicMPI.c:158-165`: the first
index `i ∈ [1, n)` with `g[i-1] > g[i]`, if any (the loop breaks at the
first violation). -/
def firstErrorFrom (g : List ℤ) (n i : ℕ) : Option ℕ :=
  if i < n then
    if g.getD (i - 1) 0 > g.getD i 0 then some i else firstErrorFrom g n (i + 1)
  else none
termination_by n - i

/-- The index reported by `src/Extra/bitonicMPI.c` together with the two
adjacent values printed at it (`global_arr[first_error-1] > global_arr[first_error]`). -/
def firstErrorReport (g : List ℤ) (n : ℕ) : Option (ℕ × ℤ × ℤ) :=
  (firstErrorFrom g n 1).map fun i => (i, g.getD (i - 1) 0, g.getD i 0)

theorem verifyFrom_iff {g : List ℤ} {n : ℕ} : ∀ {i : ℕ},
    verifyFrom g n i = true ↔ ∀ t, i ≤ t → t < n → g.getD (t - 1) 0 ≤ g.getD t 0 := by
  have key : ∀ d i, n - i = d →
      (verifyFrom g n i = true ↔ ∀ t, i ≤ t → t < n → g.getD (t - 1) 0 ≤ g.getD t 0) := by
    intro d
    induction d using Nat.strongRecOn with
    | ind d ih => ?_
    intro i hd
    rw [verifyFrom]
    by_cases hi : i < n
    · rw [if_pos hi]
      by_cases hv : g.getD (i - 1) 0 > g.getD i 0
      · rw [if_pos hv]
        exact iff_of_false (by simp) fun h => absurd (h i le_rfl hi) (not_le_of_lt hv)
      · rw [if_neg hv, ih (n - (i + 1)) (by omega) (i + 1) rfl]
        constructor
        · intro h t hit htn
          rcases Nat.eq_or_lt_of_le hit with h2 | h2
          · subst h2; exact le_of_not_lt hv
          · exact h t h2 htn
        · intro h t hit htn; exact h t (by omega) htn
    · rw [if_neg hi]
      exact iff_of_true rfl fun t h1 h2 => by omega
  intro i
  exact key (n - i) i rfl

theorem firstErrorFrom_none_iff {g : List ℤ} {n : ℕ} : ∀ {i : ℕ},
    (firstErrorFrom g n i = none ↔ verifyFrom g n i = true) := by
  have key : ∀ d i, n - i = d →
      (firstErrorFrom g n i = none ↔ verifyFrom g n i = true) := by
    intro d
    induction d using Nat.strongRecOn with
    | ind d ih => ?_
    intro i hd
    rw [firstErrorFrom, verifyFrom]
    by_cases hi : i < n
    · rw [if_pos hi, if_pos hi]
      by_cases hv : g.getD (i - 1) 0 > g.getD i 0
      · rw [if_pos hv, if_pos hv]
        simp
      · rw [if_neg hv, if_neg hv]
        exact ih (n - (i + 1)) (by omega) (i + 1) rfl
    · rw [if_neg hi, if_neg hi]
      simp
  intro i
  exact key (n - i) i rfl

theorem firstErrorFrom_some {g : List ℤ} {n : ℕ} : ∀ {i e : ℕ},
    firstErrorFrom g n i = some e →
    i ≤ e ∧ e < n ∧ g.getD e 0 < g.getD (e - 1) 0 ∧
      ∀ t, i ≤ t → t < e → g.getD (t - 1) 0 ≤ g.getD t 0 := by
  have key : ∀ d i e, n - i = d → firstErrorFrom g n i = some e →
      i ≤ e ∧ e < n ∧ g.getD e 0 < g.getD (e - 1) 0 ∧
        ∀ t, i ≤ t → t < e → g.getD (t - 1) 0 ≤ g.getD t 0 := by
    intro d
    induction d using Nat.strongRecOn with
    | ind d ih => ?_
    intro i e hd h
    rw [firstErrorFrom] at h
    by_cases hi : i < n
    · rw [if_pos hi] at h
      by_cases hv : g.getD (i - 1) 0 > g.getD i 0
      · rw [if_pos hv] at h
        have he : i = e := Option.some.inj h
        subst he
        exact ⟨le_rfl, hi, hv, fun t h1 h2 => by omega⟩
      · rw [if_neg hv] at h
        obtain ⟨h1, h2, h3, h4⟩ := ih (n - (i + 1)) (by omega) (i + 1) e rfl h
        refine ⟨by omega, h2, h3, fun t ht1 ht2 => ?_⟩
        rcases Nat.eq_or_lt_of_le ht1 with h5 | h5
        · subst h5; exact le_of_not_lt hv
        · exact h4 t (by omega) ht2
    · rw [if_neg hi] at h
      exact absurd h (by simp)
  intro i e
  exact key (n - i) i e rfl

/-! ### Bit-arithmetic helpers for ranks, partners and directions -/

theorem testBit_mul_add_low (q r i M : ℕ) (hiM : i < M) :
    (2 ^ M * q + r).testBit i = r.testBit i := by
  have hsplit : 2 ^ M * q = 2 ^ i * (2 ^ (M - i) * q) := by
    rw [← mul_assoc, ← pow_add]
    congr 2
    omega
  have hMi : ∃ d, M - i = d + 1 := ⟨M - i - 1, by omega⟩
  obtain ⟨d, hd⟩ := hMi
  rw [Nat.testBit_to_div_mod, Nat.testBit_to_div_mod, hsplit,
    Nat.mul_add_div (Nat.two_pow_pos i), hd, pow_succ']
  rw [mul_assoc, Nat.mul_add_mod]

theorem testBit_mul_add_high (q r i M : ℕ) (hr : r < 2 ^ M) (hMi : M ≤ i) :
    (2 ^ M * q + r).testBit i = (2 ^ M * q).testBit i := by
  have hdiv : (2 ^ M * q + r) / 2 ^ i = (2 ^ M * q) / 2 ^ i := by
    have hsplit : (2 : ℕ) ^ i = 2 ^ M * 2 ^ (i - M) := by
      rw [← pow_add]; congr 1; omega
    rw [hsplit, ← Nat.div_div_eq_div_mul, ← Nat.div_div_eq_div_mul,
      Nat.mul_add_div (Nat.two_pow_pos M), Nat.div_eq_of_lt hr,
      Nat.add_zero, Nat.mul_div_cancel_left q (Nat.two_pow_pos M)]
  rw [Nat.testBit_to_div_mod, Nat.testBit_to_div_mod, hdiv]

theorem add_xor_of_lt (q r j M : ℕ) (hr : r < 2 ^ M) (hj : j < 2 ^ M) :
    (2 ^ M * q + r) ^^^ j = 2 ^ M * q + (r ^^^ j) := by
  apply Nat.eq_of_testBit_eq
  intro i
  rcases lt_or_le i M with hiM | hiM
  · rw [Nat.testBit_xor, testBit_mul_add_low q r i M hiM,
      testBit_mul_add_low q (r ^^^ j) i M hiM, Nat.testBit_xor]
  · have hji : j < 2 ^ i := lt_of_lt_of_le hj (Nat.pow_le_pow_right (by norm_num) hiM)
    have hxj : r ^^^ j < 2 ^ M := Nat.xor_lt_two_pow hr hj
    rw [Nat.testBit_xor, Nat.testBit_lt_two_pow hji,
      testBit_mul_add_high q r i M hr hiM,
      testBit_mul_add_high q (r ^^^ j) i M hxj hiM]
    simp

theorem and_two_pow_eq_zero_iff (x c : ℕ) : x &&& 2 ^ c = 0 ↔ x.testBit c = false := by
  rw [Nat.and_two_pow]
  cases h : x.testBit c <;> simp [(Nat.two_pow_pos c).ne']

theorem testBit_of_lt_two_pow_succ {r t : ℕ} (h : r < 2 ^ (t + 1)) :
    r.testBit t = decide (2 ^ t ≤ r) := by
  rcases lt_or_le r (2 ^ t) with h2 | h2
  · rw [Nat.testBit_lt_two_pow h2]
    simp [Nat.not_le_of_lt h2]
  · have hr : r = 2 ^ t + (r - 2 ^ t) := by omega
    rw [hr, Nat.testBit_two_pow_add_eq,
      Nat.testBit_lt_two_pow (x := r - 2 ^ t) (by rw [pow_succ] at h; omega)]
    simp [h2]

/-! ### The exchange schedule and the direction formulas
(`bitonicMPI_fixed.c:143-150`) -/

/-- `ascending_block = ((rank & k) == 0)` (`bitonicMPI_fixed.c:148`). -/
def ascending_block (rank k : ℕ) : Bool := rank &&& k == 0

/-- `lower_partner = ((rank & j) == 0)` (`bitonicMPI_fixed.c:149`). -/
def lower_partner (rank j : ℕ) : Bool := rank &&& j == 0

/-- `keep_low = ascending_block ? lower_partner : (1 - lower_partner)`
(`bitonicMPI_fixed.c:150`). -/
def keep_low (rank k j : ℕ) : Bool :=
  if ascending_block rank k then lower_partner rank j else !lower_partner rank j

/-- The inner loop counter sequence `for (j = jstart; j > 0; j >>= 1)`
(`bitonicMPI_fixed.c:144`). -/
def jSeq (j : ℕ) : List ℕ :=
  if j = 0 then [] else j :: jSeq (j / 2)
termination_by j
decreasing_by simp_wf; omega

/-- The outer loop counter sequence `for (k = 2; k <= size; k <<= 1)`
(`bitonicMPI_fixed.c:143`): values of `k` starting from `k0` while
`k ≤ P`.  The C loop terminates because `k` doubles from `2`; this is
expressed with explicit fuel, `fuel = P` being sufficient
(`kSeq_pow`). -/
def kSeq : ℕ → ℕ → ℕ → List ℕ
  | 0, _, _ => []
  | fuel + 1, k, P => if k ≤ P then k :: kSeq fuel (2 * k) P else []

/-- The full `(k, j)` round schedule of the distributed exchange network
(`bitonicMPI_fixed.c:143-144`). -/
def schedule (P : ℕ) : List (ℕ × ℕ) :=
  (kSeq P 2 P).flatMap fun k => (jSeq (k / 2)).map fun j => (k, j)

theorem jSeq_pow (t : ℕ) : jSeq (2 ^ t) = 2 ^ t :: jSeq (2 ^ t / 2) := by
  rw [jSeq]
  simp [(Nat.two_pow_pos t).ne']

theorem two_pow_succ_div_two (t : ℕ) : 2 ^ (t + 1) / 2 = 2 ^ t := by
  rw [pow_succ]
  omega

theorem jSeq_pow_length (t : ℕ) : (jSeq (2 ^ t)).length = t + 1 := by
  induction t with
  | zero =>
    rw [jSeq_pow]
    norm_num
    rw [jSeq]
    rfl
  | succ t ih =>
    rw [jSeq_pow, two_pow_succ_div_two]
    simp [ih]

theorem kSeq_pow (fuel c m : ℕ) (hcm : c ≤ m + 1) (hf : m + 1 - c ≤ fuel) :
    kSeq fuel (2 ^ c) (2 ^ m) = (List.range (m + 1 - c)).map fun i => 2 ^ (c + i) := by
  induction fuel generalizing c with
  | zero =>
    have hc : c = m + 1 := by omega
    subst hc
    simp [kSeq]
  | succ fuel ih =>
    rw [kSeq]
    rcases Nat.lt_or_ge m c with hgt | hle2
    · have hc : c = m + 1 := by omega
      subst hc
      rw [if_neg (Nat.not_le_of_lt (Nat.pow_lt_pow_right one_lt_two (by omega)))]
      simp
    · rw [if_pos (Nat.pow_le_pow_right (by norm_num) hle2)]
      have h2 : 2 * 2 ^ c = 2 ^ (c + 1) := (pow_succ' 2 c).symm
      rw [h2, ih (c + 1) (by omega) (by omega)]
      have hr : m + 1 - c = (m - c) + 1 := by omega
      rw [hr, List.range_succ_eq_map]
      simp only [List.map_cons, List.map_map]
      congr 1
      have hmc : m + 1 - (c + 1) = m - c := by omega
      rw [hmc]
      apply List.map_congr_left
      intro i _
      simp only [Function.comp_apply]
      congr 1
      omega

theorem schedule_one : schedule 1 = [] := by
  rfl

theorem schedule_pow_succ_split (m : ℕ) :
    schedule (2 ^ (m + 1)) =
      schedule (2 ^ m) ++ (jSeq (2 ^ m)).map fun j => (2 ^ (m + 1), j) := by
  unfold schedule
  have h1 : kSeq (2 ^ (m + 1)) 2 (2 ^ (m + 1)) =
      (List.range (m + 1)).map fun i => 2 ^ (1 + i) := by
    have h := kSeq_pow (2 ^ (m + 1)) 1 (m + 1) (by omega)
      (by have := Nat.lt_two_pow (m + 1); omega)
    simpa using h
  have h2 : kSeq (2 ^ m) 2 (2 ^ m) = (List.range m).map fun i => 2 ^ (1 + i) := by
    have h := kSeq_pow (2 ^ m) 1 m (by omega)
      (by have := Nat.lt_two_pow m; omega)
    simpa using h
  rw [h1, h2, List.range_succ, List.map_append, List.flatMap_append]
  congr 1
  have hc : 1 + m = m + 1 := by omega
  simp only [List.map_cons, List.map_nil, List.flatMap_cons, List.flatMap_nil,
    List.append_nil]
  rw [hc, two_pow_succ_div_two]

theorem schedule_length_doubled (m : ℕ) :
    2 * (schedule (2 ^ m)).length = m * (m + 1) := by
  induction m with
  | zero =>
    rw [pow_zero, schedule_one]
    rfl
  | succ m ih =>
    rw [schedule_pow_succ_split, List.length_append, List.length_map, jSeq_pow_length]
    ring_nf
    ring_nf at ih
    omega

/-! ### Power-of-two gate and configuration (`bitonicMPI_fixed.c:95-108`) -/

theorem is_power_of_two_iff (x : ℕ) : is_power_of_two x = true ↔ ∃ m, x = 2 ^ m := by
  unfold is_power_of_two
  simp only [Bool.and_eq_true, decide_eq_true_eq]
  constructor
  · rintro ⟨hpos, hland⟩
    refine ⟨Nat.log 2 x, ?_⟩
    have hlow : 2 ^ Nat.log 2 x ≤ x := Nat.pow_log_le_self 2 (by omega)
    have hhigh : x < 2 ^ (Nat.log 2 x + 1) := Nat.lt_pow_succ_log_self (by norm_num) x
    set l := Nat.log 2 x with hl
    by_contra hne
    have hy : 0 < x - 2 ^ l := by omega
    have hylt : x - 2 ^ l < 2 ^ l := by
      rw [pow_succ] at hhigh
      omega
    have hx : x = 2 ^ l + (x - 2 ^ l) := by omega
    have ht1 : x.testBit l = true := by
      rw [hx, Nat.testBit_two_pow_add_eq, Nat.testBit_lt_two_pow hylt]
      rfl
    have hx1 : x - 1 = 2 ^ l + (x - 2 ^ l - 1) := by omega
    have ht2 : (x - 1).testBit l = true := by
      rw [hx1, Nat.testBit_two_pow_add_eq,
        Nat.testBit_lt_two_pow (x := x - 2 ^ l - 1) (by omega)]
      rfl
    have : (x &&& (x - 1)).testBit l = true := by
      rw [Nat.testBit_land, ht1, ht2]
      rfl
    rw [hland] at this
    simp at this
  · rintro ⟨m, rfl⟩
    refine ⟨Nat.two_pow_pos m, ?_⟩
    apply Nat.eq_of_testBit_eq
    intro i
    rw [Nat.testBit_land, Nat.testBit_two_pow, Nat.testBit_two_pow_sub_one,
      Nat.zero_testBit]
    by_cases h : m = i <;> simp [h]

/-- The startup sequence of `main` (`bitonicMPI_fixed.c:95-108`) up to and
including the `local_size` check, before any partition buffer is allocated
(`bitonicMPI_fixed.c:116-127`): abort (`MPI_Abort`, modelled as `none`)
when the process count is not a power of two, otherwise compute `N` and
`local_size`, aborting if the latter is not positive.  A `some` result is
what the allocation and sorting stages consume. -/
def setupConfig (n P : ℕ) : Option (ℕ × ℕ) :=
  if !is_power_of_two P then none
  else
    if totalSizeOf n P / P = 0 then none
    else some (totalSizeOf n P, totalSizeOf n P / P)

theorem totalSizeOf_eq_pow (n m : ℕ) :
    ∃ a, next_power_of_two n = 2 ^ a ∧ totalSizeOf n (2 ^ m) = 2 ^ max a m := by
  obtain ⟨⟨a, ha⟩, hge, hmin⟩ := next_power_of_two_spec n
  refine ⟨a, ha, ?_⟩
  unfold totalSizeOf
  rw [ha]
  exact padLoop_pow_spec (2 ^ m) a m (by have := Nat.lt_two_pow m; omega)

theorem totalSizeOf_pos_mult (n m : ℕ) :
    2 ^ m ≤ totalSizeOf n (2 ^ m) ∧ 2 ^ m ∣ totalSizeOf n (2 ^ m) := by
  obtain ⟨a, _, hT⟩ := totalSizeOf_eq_pow n m
  rw [hT]
  exact ⟨Nat.pow_le_pow_right (by norm_num) (le_max_right a m),
    pow_dvd_pow 2 (le_max_right a m)⟩

/-- C6: a process count that is not a power of two is rejected before any
partition is allocated (the startup stage yields no configuration, hence no
partial output), while every power-of-two process count passes the check
and startup proceeds with the computed sizes. -/
theorem config_gate_spec (n P : ℕ) :
    ((¬ ∃ m, P = 2 ^ m) → is_power_of_two P = false ∧ setupConfig n P = none) ∧
      ∀ m, P = 2 ^ m → is_power_of_two P = true ∧
        0 < totalSizeOf n P / P ∧
        setupConfig n P = some (totalSizeOf n P, totalSizeOf n P / P) := by
  constructor
  · intro hnp
    have hfalse : is_power_of_two P = false := by
      rcases h : is_power_of_two P with _ | _
      · rfl
      · exact absurd ((is_power_of_two_iff P).mp h) hnp
    refine ⟨hfalse, ?_⟩
    unfold setupConfig
    rw [hfalse]
    rfl
  · rintro m rfl
    have htrue : is_power_of_two (2 ^ m) = true :=
      (is_power_of_two_iff (2 ^ m)).mpr ⟨m, rfl⟩
    obtain ⟨hle, _⟩ := totalSizeOf_pos_mult n m
    have hpos : 0 < totalSizeOf n (2 ^ m) / 2 ^ m :=
      Nat.div_pos hle (Nat.two_pow_pos m)
    refine ⟨htrue, hpos, ?_⟩
    unfold setupConfig
    rw [htrue]
    rw [if_neg (by simp), if_neg (by omega)]

/-- C6 witness: `P = 3` is rejected with no configuration produced, while
`P = 4` passes and startup proceeds. -/
theorem config_gate_spec_witness :
    (is_power_of_two 3 = false ∧ setupConfig 1024 3 = none) ∧
      is_power_of_two 4 = true ∧ 0 < totalSizeOf 1024 4 / 4 ∧
        setupConfig 1024 4 = some (totalSizeOf 1024 4, totalSizeOf 1024 4 / 4) := by
  constructor
  · refine (config_gate_spec 1024 3).1 ?_
    rintro ⟨m, hm⟩
    rcases m with _ | _ | m
    · simp at hm
    · norm_num at hm
    · have : 4 ≤ 2 ^ (m + 2) := by
        calc (4 : ℕ) = 2 ^ 2 := by norm_num
          _ ≤ 2 ^ (m + 2) := Nat.pow_le_pow_right (by norm_num) (by omega)
      omega
  · exact (config_gate_spec 1024 4).2 2 (by decide)

/-- C3: for positive `n` and a power-of-two process count, the partition
sizer computes `totalSize` as the smallest power of two that is both `≥ n`
and a multiple of `P` (by doubling `next_power_of_two n` until divisible),
and `localSize = totalSize / P`. -/
theorem partition_sizer_spec (n m : ℕ) (hn : 0 < n) :
    (∃ t, totalSizeOf n (2 ^ m) = 2 ^ t) ∧
      n ≤ totalSizeOf n (2 ^ m) ∧
      2 ^ m ∣ totalSizeOf n (2 ^ m) ∧
      (∀ R, (∃ r, R = 2 ^ r) → n ≤ R → 2 ^ m ∣ R → totalSizeOf n (2 ^ m) ≤ R) ∧
      localSizeOf n (2 ^ m) = totalSizeOf n (2 ^ m) / 2 ^ m := by
  obtain ⟨a, ha, hT⟩ := totalSizeOf_eq_pow n m
  obtain ⟨_, hge, hmin⟩ := next_power_of_two_spec n
  obtain ⟨hle, hdvd⟩ := totalSizeOf_pos_mult n m
  refine ⟨⟨max a m, hT⟩, ?_, hdvd, ?_, rfl⟩
  · calc n ≤ next_power_of_two n := hge
      _ = 2 ^ a := ha
      _ ≤ 2 ^ max a m := Nat.pow_le_pow_right (by norm_num) (le_max_left a m)
      _ = totalSizeOf n (2 ^ m) := hT.symm
  · rintro R ⟨r, rfl⟩ hnR hdvdR
    have har : a ≤ r := by
      have h1 : next_power_of_two n ≤ 2 ^ r := hmin r hnR
      rw [ha] at h1
      exact (Nat.pow_le_pow_iff_right (by norm_num)).mp h1
    have hmr : m ≤ r := by
      have h2 : 2 ^ r % 2 ^ m = 0 := Nat.mod_eq_zero_of_dvd hdvdR
      exact pow_mod_pow_eq_zero_iff.mp h2
    rw [hT]
    exact Nat.pow_le_pow_right (by norm_num) (by omega)

/-- C3 witness at `n = 3`, `P = 2`: `totalSize = 4`, `localSize = 2`. -/
theorem partition_sizer_spec_witness :
    0 < 3 ∧ ((∃ t, totalSizeOf 3 (2 ^ 1) = 2 ^ t) ∧
      3 ≤ totalSizeOf 3 (2 ^ 1) ∧
      2 ^ 1 ∣ totalSizeOf 3 (2 ^ 1) ∧
      (∀ R, (∃ r, R = 2 ^ r) → 3 ≤ R → 2 ^ 1 ∣ R → totalSizeOf 3 (2 ^ 1) ≤ R) ∧
      localSizeOf 3 (2 ^ 1) = totalSizeOf 3 (2 ^ 1) / 2 ^ 1) :=
  ⟨by decide, partition_sizer_spec 3 1 (by decide)⟩

/-- C5: the distributed exchange network executes exactly
`log2(P) * (log2(P) + 1) / 2` exchange rounds for every power-of-two
process count `P = 2^m`; the schedule is a function of `P` alone, so the
count is independent of the element count `n`. -/
theorem round_count_spec (m : ℕ) :
    (schedule (2 ^ m)).length = m * (m + 1) / 2 ∧
      2 * (schedule (2 ^ m)).length = m * (m + 1) := by
  have h := schedule_length_doubled m
  rw [← h]
  exact ⟨by omega, rfl⟩

/-! ### C2: the pairwise merge-select contract -/

/-- C2: on two `≤`-sorted runs of length `L`, `merge_and_select` returns a
sorted run (ascending regardless of `keep_low`) of length `L` whose
multiset is the `L` smallest (`keep_low`) or `L` largest (otherwise)
elements of the combined multiset — the prefix resp. suffix of the
canonical sorted arrangement of `A ++ B`. -/
theorem merge_and_select_spec (a b : List ℤ) (L : ℕ) (kl : Bool)
    (ha : a.Sorted (· ≤ ·)) (hb : b.Sorted (· ≤ ·))
    (hla : a.length = L) (hlb : b.length = L) :
    (merge_and_select a b L kl).Sorted (· ≤ ·) ∧
      (merge_and_select a b L kl).length = L ∧
      ((merge_and_select a b L kl : List ℤ) : Multiset ℤ) =
        (if kl then (List.insertionSort (· ≤ ·) (a ++ b)).take L
          else (List.insertionSort (· ≤ ·) (a ++ b)).drop L : List ℤ) := by
  refine ⟨merge_and_select_sorted ha hb L kl, merge_and_select_length hla hlb kl, ?_⟩
  cases kl with
  | true =>
    rw [show merge_and_select a b L true = (mergeLists a b).take L from rfl,
      mergeLists_eq_insertionSort ha hb]
    simp
  | false =>
    rw [show merge_and_select a b L false = (mergeLists a b).drop L from rfl,
      mergeLists_eq_insertionSort ha hb]
    simp

/-- C2 witness at `A = [1, 3]`, `B = [2, 4]`, `L = 2`, `keep_low = true`. -/
theorem merge_and_select_spec_witness :
    List.Sorted (· ≤ ·) ([1, 3] : List ℤ) ∧
      (merge_and_select [1, 3] [2, 4] 2 true).Sorted (· ≤ ·) ∧
      (merge_and_select [1, 3] [2, 4] 2 true).length = 2 ∧
      ((merge_and_select [1, 3] [2, 4] 2 true : List ℤ) : Multiset ℤ) =
        ((List.insertionSort (· ≤ ·) (([1, 3] : List ℤ) ++ [2, 4])).take 2 : List ℤ) := by
  have h := merge_and_select_spec [1, 3] [2, 4] 2 true (by decide) (by decide) rfl rfl
  refine ⟨by decide, h.1, h.2.1, ?_⟩
  simpa using h.2.2

/-! ### C9: partner pairing and complementary keep directions -/

theorem lower_partner_eq (x b : ℕ) : lower_partner x (2 ^ b) = !x.testBit b := by
  unfold lower_partner
  cases h : x.testBit b with
  | false =>
    have h0 : x &&& 2 ^ b = 0 := (and_two_pow_eq_zero_iff x b).mpr h
    simp [h0]
  | true =>
    have h0 : x &&& 2 ^ b ≠ 0 := by
      rw [ne_eq, and_two_pow_eq_zero_iff x b, h]
      simp
    simp [h0]

theorem ascending_block_eq (x c : ℕ) : ascending_block x (2 ^ c) = !x.testBit c := by
  unfold ascending_block
  cases h : x.testBit c with
  | false =>
    have h0 : x &&& 2 ^ c = 0 := (and_two_pow_eq_zero_iff x c).mpr h
    simp [h0]
  | true =>
    have h0 : x &&& 2 ^ c ≠ 0 := by
      rw [ne_eq, and_two_pow_eq_zero_iff x c, h]
      simp
    simp [h0]

theorem testBit_xor_two_pow_self (r b : ℕ) : (r ^^^ 2 ^ b).testBit b = !r.testBit b := by
  rw [Nat.testBit_xor, Nat.testBit_two_pow_self]
  cases r.testBit b <;> rfl

theorem testBit_xor_two_pow_of_ne (r b c : ℕ) (h : b ≠ c) :
    (r ^^^ 2 ^ b).testBit c = r.testBit c := by
  rw [Nat.testBit_xor, Nat.testBit_two_pow_of_ne h]
  cases r.testBit c <;> rfl

theorem keep_low_partner_flip (r b c : ℕ) (hbc : b ≠ c) :
    keep_low (r ^^^ 2 ^ b) (2 ^ c) (2 ^ b) = !keep_low r (2 ^ c) (2 ^ b) := by
  unfold keep_low
  rw [ascending_block_eq, ascending_block_eq, lower_partner_eq, lower_partner_eq,
    testBit_xor_two_pow_of_ne r b c hbc, testBit_xor_two_pow_self]
  cases r.testBit c <;> cases r.testBit b <;> rfl

theorem merge_and_select_pair_union {a b : List ℤ}
    (ha : a.Sorted (· ≤ ·)) (hb : b.Sorted (· ≤ ·)) (L : ℕ) (kl : Bool) :
    ((merge_and_select a b L kl : List ℤ) : Multiset ℤ) +
      ((merge_and_select b a L (!kl) : List ℤ) : Multiset ℤ) =
      ((a : List ℤ) : Multiset ℤ) + ((b : List ℤ) : Multiset ℤ) := by
  have hcomm : mergeLists b a = mergeLists a b := mergeLists_comm hb ha
  have hperm : List.Perm (mergeLists a b) (a ++ b) := mergeLists_perm a b
  have h3 : List.Perm ((mergeLists a b).take L ++ (mergeLists a b).drop L) (a ++ b) := by
    rw [(mergeLists a b).take_append_drop L]
    exact hperm
  cases kl with
  | true =>
    rw [show merge_and_select a b L true = (mergeLists a b).take L from rfl,
      show merge_and_select b a L (!true) = (mergeLists b a).drop L from rfl,
      hcomm, Multiset.coe_add, Multiset.coe_add]
    exact Multiset.coe_eq_coe.mpr h3
  | false =>
    rw [show merge_and_select a b L false = (mergeLists a b).drop L from rfl,
      show merge_and_select b a L (!false) = (mergeLists b a).take L from rfl,
      hcomm, Multiset.coe_add, Multiset.coe_add]
    exact Multiset.coe_eq_coe.mpr (List.Perm.trans List.perm_append_comm h3)

/-- C9: in every round `(k, j)` of the schedule (`j = 2^b`, `k = 2^c`,
`b < c`), partnering by `rank XOR j` is an involution with no fixed point,
the two partners compute complementary `keep_low` values, and applying
`merge_and_select` on both sides of a pair of sorted partitions preserves
the multiset union of the pair. -/
theorem exchange_pair_spec (r b c L : ℕ) (hbc : b < c) (pa pb : List ℤ)
    (ha : pa.Sorted (· ≤ ·)) (hb : pb.Sorted (· ≤ ·)) :
    ((r ^^^ 2 ^ b) ^^^ 2 ^ b = r) ∧
      (r ^^^ 2 ^ b ≠ r) ∧
      keep_low (r ^^^ 2 ^ b) (2 ^ c) (2 ^ b) = !keep_low r (2 ^ c) (2 ^ b) ∧
      ((merge_and_select pa pb L (keep_low r (2 ^ c) (2 ^ b)) : List ℤ) : Multiset ℤ) +
        ((merge_and_select pb pa L (keep_low (r ^^^ 2 ^ b) (2 ^ c) (2 ^ b)) :
          List ℤ) : Multiset ℤ) =
        ((pa : List ℤ) : Multiset ℤ) + ((pb : List ℤ) : Multiset ℤ) := by
  have hflip := keep_low_partner_flip r b c (by omega)
  refine ⟨Nat.xor_cancel_right (2 ^ b) r, ?_, hflip, ?_⟩
  · intro h
    have h2 : r ^^^ 2 ^ b = r ^^^ 0 := by simpa using h
    have h3 : 2 ^ b = 0 := Nat.xor_right_inj.mp h2
    exact absurd h3 (Nat.two_pow_pos b).ne'
  · rw [hflip]
    exact merge_and_select_pair_union ha hb L (keep_low r (2 ^ c) (2 ^ b))

/-- C9 witness at `r = 0`, `j = 2^0`, `k = 2^1`, partitions `[1, 5]`, `[2, 4]`. -/
theorem exchange_pair_spec_witness :
    0 < 1 ∧ List.Sorted (· ≤ ·) ([1, 5] : List ℤ) ∧
      ((0 ^^^ 2 ^ 0) ^^^ 2 ^ 0 = 0) ∧
      (0 ^^^ 2 ^ 0 ≠ 0) ∧
      keep_low (0 ^^^ 2 ^ 0) (2 ^ 1) (2 ^ 0) = !keep_low 0 (2 ^ 1) (2 ^ 0) ∧
      ((merge_and_select [1, 5] [2, 4] 2 (keep_low 0 (2 ^ 1) (2 ^ 0)) :
        List ℤ) : Multiset ℤ) +
        ((merge_and_select [2, 4] [1, 5] 2
          (keep_low (0 ^^^ 2 ^ 0) (2 ^ 1) (2 ^ 0)) : List ℤ) : Multiset ℤ) =
        (([1, 5] : List ℤ) : Multiset ℤ) + (([2, 4] : List ℤ) : Multiset ℤ) := by
  have h := exchange_pair_spec 0 0 1 2 (by decide) [1, 5] [2, 4]
    (by decide) (by decide)
  exact ⟨by decide, by decide, h⟩

/-! ### C8: the verifier contract -/

/-- C8: the verifier returns sorted exactly when every adjacent pair among
the first `n` entries is non-decreasing (indices `≥ n` are ignored), and on
a not-sorted result the first-error scan reports the first offending index
together with the two adjacent values at that index. -/
theorem verifier_spec (g : List ℤ) (n : ℕ) :
    (verify_sorted g n = true ↔ ∀ i, 0 < i → i < n → g.getD (i - 1) 0 ≤ g.getD i 0) ∧
      (verify_sorted g n = false ↔
        ∃ e, firstErrorReport g n = some (e, g.getD (e - 1) 0, g.getD e 0) ∧
          0 < e ∧ e < n ∧ g.getD e 0 < g.getD (e - 1) 0 ∧
          ∀ t, 0 < t → t < e → g.getD (t - 1) 0 ≤ g.getD t 0) := by
  constructor
  · rw [verify_sorted, verifyFrom_iff]
    constructor
    · intro h i h1 h2; exact h i (by omega) h2
    · intro h t h1 h2; exact h t (by omega) h2
  · constructor
    · intro hfalse
      rcases he : firstErrorFrom g n 1 with _ | e
      · have hv := firstErrorFrom_none_iff.mp he
        rw [verify_sorted, hv] at hfalse
        cases hfalse
      · obtain ⟨h1, h2, h3, h4⟩ := firstErrorFrom_some he
        refine ⟨e, ?_, by omega, h2, h3, fun t ht1 ht2 => h4 t (by omega) ht2⟩
        rw [firstErrorReport, he]
        rfl
    · rintro ⟨e, hrep, _, _, _, _⟩
      rw [firstErrorReport] at hrep
      rcases he : firstErrorFrom g n 1 with _ | e2
      · rw [he] at hrep
        cases hrep
      · rcases hv : verify_sorted g n with _ | _
        · rfl
        · rw [verify_sorted] at hv
          have hnone : firstErrorFrom g n 1 = none := firstErrorFrom_none_iff.mpr hv
          rw [hnone] at he
          cases he

/-! ### The local bitonic sort, embedded index-for-index
(`bitonicMPI_fixed.c:12-41`).  In-place mutation of `int arr[]` becomes
functional update of a `List ℤ`; an out-of-range C access (which the
program never performs — all theorems carry the bounds it guarantees)
reads the default `0` and writes nothing. -/

/-- The body of one iteration of `bitonic_compare_and_swap`
(`bitonicMPI_fixed.c:18-23`): compare `arr[i]` with `arr[i+k]` and
`swap_int` them when out of order for direction `dir`. -/
def cas1 (arr : List ℤ) (i k : ℕ) (dir : Bool) : List ℤ :=
  let x := arr.getD i 0
  let y := arr.getD (i + k) 0
  if dir then
    if x > y then (arr.set i y).set (i + k) x else arr
  else
    if x < y then (arr.set i y).set (i + k) x else arr

/-- `bitonic_compare_and_swap` (`bitonicMPI_fixed.c:17-25`):
`for (i = low; i < low + k; ++i)` compare-and-swap `(i, i+k)`;
the loop is the fold of `cas1` over the `k` offsets. -/
def bitonic_compare_and_swap (arr : List ℤ) (low k : ℕ) (dir : Bool) : List ℤ :=
  (List.range k).foldl (fun a t => cas1 a (low + t) k dir) arr

/-- `bitonic_compare_and_swap` stopped after the first `t` loop
iterations; `casRun arr low k k dir` is the full call. -/
def casRun (arr : List ℤ) (low k t : ℕ) (dir : Bool) : List ℤ :=
  (List.range t).foldl (fun a s => cas1 a (low + s) k dir) arr

theorem bitonic_compare_and_swap_eq_casRun (arr : List ℤ) (low k : ℕ) (dir : Bool) :
    bitonic_compare_and_swap arr low k dir = casRun arr low k k dir := rfl

/-- `bitonic_merge_recursive` (`bitonicMPI_fixed.c:27-33`). -/
def bitonic_merge_recursive (arr : List ℤ) (low cnt : ℕ) (dir : Bool) : List ℤ :=
  if cnt ≤ 1 then arr
  else
    let k := cnt / 2
    let a1 := bitonic_compare_and_swap arr low k dir
    let a2 := bitonic_merge_recursive a1 low k dir
    bitonic_merge_recursive a2 (low + k) k dir
termination_by cnt
decreasing_by all_goals omega

/-- `bitonic_sort_recursive` (`bitonicMPI_fixed.c:35-41`). -/
def bitonic_sort_recursive (arr : List ℤ) (low cnt : ℕ) (dir : Bool) : List ℤ :=
  if cnt ≤ 1 then arr
  else
    let k := cnt / 2
    let a1 := bitonic_sort_recursive arr low k true
    let a2 := bitonic_sort_recursive a1 (low + k) k false
    bitonic_merge_recursive a2 low cnt dir
termination_by cnt
decreasing_by all_goals omega

/-! ### Frame and permutation facts (C10) -/

/-- `res` is `arr` with changes confined to the index window
`[low, low + cnt)`, and is a permutation of `arr`. -/
def FramePerm (arr res : List ℤ) (low cnt : ℕ) : Prop :=
  res.length = arr.length ∧ res.take low = arr.take low ∧
    res.drop (low + cnt) = arr.drop (low + cnt) ∧ List.Perm res arr

theorem framePerm_refl (arr : List ℤ) (low cnt : ℕ) : FramePerm arr arr low cnt :=
  ⟨rfl, rfl, rfl, List.Perm.refl arr⟩

theorem take_eq_of_take_eq {l l' : List ℤ} {m m' : ℕ} (h : m' ≤ m)
    (he : l'.take m = l.take m) : l'.take m' = l.take m' := by
  have h1 : l'.take m' = (l'.take m).take m' := by
    rw [List.take_take, min_eq_left h]
  have h2 : l.take m' = (l.take m).take m' := by
    rw [List.take_take, min_eq_left h]
  rw [h1, h2, he]

theorem drop_eq_of_drop_eq {l l' : List ℤ} {m m' : ℕ} (h : m ≤ m')
    (he : l'.drop m = l.drop m) : l'.drop m' = l.drop m' := by
  have h1 : l'.drop m' = (l'.drop m).drop (m' - m) := by
    rw [List.drop_drop]
    congr 1
    omega
  have h2 : l.drop m' = (l.drop m).drop (m' - m) := by
    rw [List.drop_drop]
    congr 1
    omega
  rw [h1, h2, he]

theorem framePerm_trans {arr mid res : List ℤ} {low cnt low2 cnt2 : ℕ}
    (h1 : FramePerm arr mid low cnt) (h2 : FramePerm mid res low2 cnt2)
    (hl : low ≤ low2) (hr : low2 + cnt2 ≤ low + cnt) :
    FramePerm arr res low cnt := by
  obtain ⟨e1, t1, d1, p1⟩ := h1
  obtain ⟨e2, t2, d2, p2⟩ := h2
  exact ⟨e2.trans e1, (take_eq_of_take_eq hl t2).trans t1,
    (drop_eq_of_drop_eq hr d2).trans d1, p2.trans p1⟩

theorem take_set_of_le (l : List ℤ) (n : ℕ) (a : ℤ) (m : ℕ) (h : m ≤ n) :
    (l.set n a).take m = l.take m := by
  apply List.ext_getElem
  · simp
  · intro i h1 h2
    rw [List.getElem_take, List.getElem_take, List.getElem_set_ne]
    simp at h1
    omega

theorem drop_set_of_lt (l : List ℤ) (n : ℕ) (a : ℤ) (m : ℕ) (h : n < m) :
    (l.set n a).drop m = l.drop m := by
  apply List.ext_getElem
  · simp
  · intro i h1 h2
    rw [List.getElem_drop, List.getElem_drop, List.getElem_set_ne]
    omega

theorem pick_swap_perm : ∀ (t : List ℤ) (j : ℕ) (x : ℤ), j < t.length →
    List.Perm (t.getD j 0 :: t.set j x) (x :: t) := by
  intro t
  induction t with
  | nil => intro j x h; simp at h
  | cons y s ih =>
    intro j x h
    cases j with
    | zero =>
      simp only [List.getD_cons_zero, List.set_cons_zero]
      exact List.Perm.swap x y s
    | succ m =>
      simp only [List.getD_cons_succ, List.set_cons_succ]
      have h1 : List.Perm (s.getD m 0 :: y :: s.set m x) (y :: s.getD m 0 :: s.set m x) :=
        List.Perm.swap y (s.getD m 0) (s.set m x)
      have h2 : List.Perm (y :: s.getD m 0 :: s.set m x) (y :: x :: s) :=
        (ih m x (by simpa using h)).cons y
      have h3 : List.Perm (y :: x :: s) (x :: y :: s) := List.Perm.swap x y s
      exact (h1.trans h2).trans h3

theorem swap_perm (l : List ℤ) (i j : ℕ) (hij : i < j) (hj : j < l.length) :
    List.Perm ((l.set i (l.getD j 0)).set j (l.getD i 0)) l := by
  induction l generalizing i j with
  | nil => simp at hj
  | cons y s ih =>
    cases i with
    | zero =>
      cases j with
      | zero => omega
      | succ m =>
        simp only [List.getD_cons_succ, List.set_cons_zero, List.set_cons_succ,
          List.getD_cons_zero]
        exact pick_swap_perm s m y (by simpa using hj)
    | succ i2 =>
      cases j with
      | zero => omega
      | succ m =>
        simp only [List.getD_cons_succ, List.set_cons_succ]
        exact (ih i2 m (by omega) (by simpa using hj)).cons y

theorem cas1_framePerm (arr : List ℤ) (i k : ℕ) (dir : Bool) (hk : 0 < k)
    (hbound : i + k < arr.length) :
    FramePerm arr (cas1 arr i k dir) i (k + 1) := by
  have hswap : FramePerm arr ((arr.set i (arr.getD (i + k) 0)).set (i + k) (arr.getD i 0))
      i (k + 1) := by
    refine ⟨by simp, ?_, ?_, swap_perm arr i (i + k) (by omega) hbound⟩
    · rw [take_set_of_le _ _ _ _ (by omega), take_set_of_le _ _ _ _ (by omega)]
    · rw [drop_set_of_lt _ _ _ _ (by omega), drop_set_of_lt _ _ _ _ (by omega)]
  cases dir with
  | false =>
    rw [show cas1 arr i k false = (if arr.getD i 0 < arr.getD (i + k) 0
        then (arr.set i (arr.getD (i + k) 0)).set (i + k) (arr.getD i 0) else arr) from rfl]
    by_cases hxy : arr.getD i 0 < arr.getD (i + k) 0
    · rw [if_pos hxy]; exact hswap
    · rw [if_neg hxy]; exact framePerm_refl arr i (k + 1)
  | true =>
    rw [show cas1 arr i k true = (if arr.getD i 0 > arr.getD (i + k) 0
        then (arr.set i (arr.getD (i + k) 0)).set (i + k) (arr.getD i 0) else arr) from rfl]
    by_cases hxy : arr.getD i 0 > arr.getD (i + k) 0
    · rw [if_pos hxy]; exact hswap
    · rw [if_neg hxy]; exact framePerm_refl arr i (k + 1)

theorem casRun_succ (arr : List ℤ) (low k t : ℕ) (dir : Bool) :
    casRun arr low k (t + 1) dir = cas1 (casRun arr low k t dir) (low + t) k dir := by
  unfold casRun
  rw [List.range_succ, List.foldl_append]
  rfl

theorem casRun_framePerm (arr : List ℤ) (low k : ℕ) (dir : Bool) (hk : 0 < k) :
    ∀ t, t ≤ k → low + 2 * k ≤ arr.length →
      FramePerm arr (casRun arr low k t dir) low (2 * k) := by
  intro t
  induction t with
  | zero => intro _ _; exact framePerm_refl arr low (2 * k)
  | succ t ih =>
    intro ht hbound
    have hprev := ih (by omega) hbound
    rw [casRun_succ]
    have hlen : (casRun arr low k t dir).length = arr.length := hprev.1
    have hstep : FramePerm (casRun arr low k t dir)
        (cas1 (casRun arr low k t dir) (low + t) k dir) (low + t) (k + 1) :=
      cas1_framePerm _ (low + t) k dir hk (by omega)
    exact framePerm_trans hprev hstep (by omega) (by omega)

theorem bitonic_compare_and_swap_framePerm (arr : List ℤ) (low k : ℕ) (dir : Bool)
    (hbound : low + 2 * k ≤ arr.length) :
    FramePerm arr (bitonic_compare_and_swap arr low k dir) low (2 * k) := by
  rcases Nat.eq_zero_or_pos k with hk | hk
  · subst hk
    exact framePerm_refl arr low 0
  · rw [bitonic_compare_and_swap_eq_casRun]
    exact casRun_framePerm arr low k dir hk k le_rfl hbound

theorem framePerm_widen {arr res : List ℤ} {low cnt low2 cnt2 : ℕ}
    (h : FramePerm arr res low2 cnt2) (hl : low ≤ low2) (hr : low2 + cnt2 ≤ low + cnt) :
    FramePerm arr res low cnt :=
  framePerm_trans (framePerm_refl arr low cnt) h hl hr

theorem bitonic_merge_recursive_framePerm :
    ∀ (cnt : ℕ) (arr : List ℤ) (low : ℕ) (dir : Bool), low + cnt ≤ arr.length →
      FramePerm arr (bitonic_merge_recursive arr low cnt dir) low cnt := by
  intro cnt
  induction cnt using Nat.strongRecOn with
  | ind cnt ih => ?_
  intro arr low dir hbound
  rw [bitonic_merge_recursive]
  by_cases h1 : cnt ≤ 1
  · rw [if_pos h1]
    exact framePerm_refl arr low cnt
  · rw [if_neg h1]
    have hc := bitonic_compare_and_swap_framePerm arr low (cnt / 2) dir (by omega)
    have hlen1 : (bitonic_compare_and_swap arr low (cnt / 2) dir).length = arr.length := hc.1
    have hm1 := ih (cnt / 2) (by omega) (bitonic_compare_and_swap arr low (cnt / 2) dir)
      low dir (by rw [hlen1]; omega)
    have hlen2 : (bitonic_merge_recursive (bitonic_compare_and_swap arr low (cnt / 2) dir)
        low (cnt / 2) dir).length = arr.length := by
      rw [hm1.1, hlen1]
    have hm2 := ih (cnt / 2) (by omega)
      (bitonic_merge_recursive (bitonic_compare_and_swap arr low (cnt / 2) dir)
        low (cnt / 2) dir) (low + cnt / 2) dir (by rw [hlen2]; omega)
    exact framePerm_trans
      (framePerm_trans (framePerm_widen hc le_rfl (by omega)) hm1 le_rfl (by omega))
      hm2 (by omega) (by omega)

theorem bitonic_sort_recursive_framePerm :
    ∀ (cnt : ℕ) (arr : List ℤ) (low : ℕ) (dir : Bool), low + cnt ≤ arr.length →
      FramePerm arr (bitonic_sort_recursive arr low cnt dir) low cnt := by
  intro cnt
  induction cnt using Nat.strongRecOn with
  | ind cnt ih => ?_
  intro arr low dir hbound
  rw [bitonic_sort_recursive]
  by_cases h1 : cnt ≤ 1
  · rw [if_pos h1]
    exact framePerm_refl arr low cnt
  · rw [if_neg h1]
    have hs1 := ih (cnt / 2) (by omega) arr low true (by omega)
    have hs2 := ih (cnt / 2) (by omega) (bitonic_sort_recursive arr low (cnt / 2) true)
      (low + cnt / 2) false (by rw [hs1.1]; omega)
    have hm := bitonic_merge_recursive_framePerm cnt
      (bitonic_sort_recursive (bitonic_sort_recursive arr low (cnt / 2) true)
        (low + cnt / 2) (cnt / 2) false) low dir (by rw [hs2.1, hs1.1]; exact hbound)
    exact framePerm_trans
      (framePerm_trans (framePerm_widen hs1 le_rfl (by omega)) hs2 (by omega) (by omega))
      hm le_rfl le_rfl

theorem segment_decomp (x : List ℤ) (low cnt : ℕ) :
    x = x.take low ++ ((x.drop low).take cnt ++ x.drop (low + cnt)) := by
  have h1 : (x.drop low).drop cnt = x.drop (low + cnt) := by
    rw [List.drop_drop]
  rw [← h1, (x.drop low).take_append_drop cnt, x.take_append_drop low]

theorem segment_perm_of_framePerm {arr res : List ℤ} {low cnt : ℕ}
    (h : FramePerm arr res low cnt) :
    List.Perm ((res.drop low).take cnt) ((arr.drop low).take cnt) := by
  obtain ⟨hlen, ht, hd, hp⟩ := h
  have hdecr := segment_decomp res low cnt
  have hdeca := segment_decomp arr low cnt
  have hp2 : List.Perm (res.take low ++ ((res.drop low).take cnt ++ res.drop (low + cnt)))
      (arr.take low ++ ((arr.drop low).take cnt ++ arr.drop (low + cnt))) := by
    rw [← hdecr, ← hdeca]
    exact hp
  rw [ht, hd] at hp2
  have hp3 := (List.perm_append_left_iff (arr.take low)).mp hp2
  exact (List.perm_append_right_iff (arr.drop (low + cnt))).mp hp3

/-- C10: for every array, offset and count with `low + cnt` within bounds,
and every direction, `bitonic_sort_recursive` only modifies indices in
`[low, low + cnt)` — the prefix below `low` and the suffix from
`low + cnt` are returned unchanged, the length is preserved — and the
final contents of that segment are a permutation of its initial
contents. -/
theorem bitonic_sort_recursive_frame_spec (arr : List ℤ) (low cnt : ℕ) (dir : Bool)
    (hbound : low + cnt ≤ arr.length) :
    (bitonic_sort_recursive arr low cnt dir).length = arr.length ∧
      (bitonic_sort_recursive arr low cnt dir).take low = arr.take low ∧
      (bitonic_sort_recursive arr low cnt dir).drop (low + cnt) = arr.drop (low + cnt) ∧
      List.Perm (((bitonic_sort_recursive arr low cnt dir).drop low).take cnt)
        ((arr.drop low).take cnt) := by
  have h := bitonic_sort_recursive_framePerm cnt arr low dir hbound
  exact ⟨h.1, h.2.1, h.2.2.1, segment_perm_of_framePerm h⟩

/-- C10 witness at `arr = [9, 3, 1, 4, 7]`, `low = 1`, `cnt = 4`. -/
theorem bitonic_sort_recursive_frame_spec_witness :
    1 + 4 ≤ ([9, 3, 1, 4, 7] : List ℤ).length ∧
      ((bitonic_sort_recursive [9, 3, 1, 4, 7] 1 4 true).length =
        ([9, 3, 1, 4, 7] : List ℤ).length ∧
      (bitonic_sort_recursive [9, 3, 1, 4, 7] 1 4 true).take 1 =
        ([9, 3, 1, 4, 7] : List ℤ).take 1 ∧
      (bitonic_sort_recursive [9, 3, 1, 4, 7] 1 4 true).drop (1 + 4) =
        ([9, 3, 1, 4, 7] : List ℤ).drop (1 + 4) ∧
      List.Perm (((bitonic_sort_recursive [9, 3, 1, 4, 7] 1 4 true).drop 1).take 4)
        ((([9, 3, 1, 4, 7] : List ℤ).drop 1).take 4)) :=
  ⟨by decide, bitonic_sort_recursive_frame_spec [9, 3, 1, 4, 7] 1 4 true (by decide)⟩

/-! ### Generic recursive comparator network

Both halves of the program are instances of one recursive skeleton:
the local `bitonic_merge_recursive`/`bitonic_sort_recursive` on `ℤ`
entries (comparators `min`/`max`), and the distributed `(k, j)` loop on
whole partitions (comparators keep-low/keep-high `merge_and_select`).
`gmerge` performs one half-cleaner step — position `i` of the lower half
is combined with position `i` of the upper half, the lower position
receiving the keep-low result in an ascending region — and recurses into
the halves; `gsort` sorts the two halves in opposite directions and
merges.  The argument order mirrors the program: every position combines
`(own, partner)`; in an ascending region the upper position therefore
computes `fhi partner own`. -/

def gmerge {α : Type} (flo fhi : α → α → α) (asc : Bool) (v : List α) : List α :=
  if v.length ≤ 1 then v
  else
    let s := v.length / 2
    let f := v.take s
    let m := v.drop s
    let pl := List.zipWith (fun a b => if asc then flo a b else fhi a b) f m
    let ph := List.zipWith (fun a b => if asc then fhi b a else flo b a) f m
    gmerge flo fhi asc pl ++ gmerge flo fhi asc ph
termination_by v.length
decreasing_by
  all_goals simp only [List.length_zipWith, List.length_take, List.length_drop]
  all_goals omega

def gsort {α : Type} (flo fhi : α → α → α) (asc : Bool) (v : List α) : List α :=
  if v.length ≤ 1 then v
  else
    let s := v.length / 2
    gmerge flo fhi asc (gsort flo fhi true (v.take s) ++ gsort flo fhi false (v.drop s))
termination_by v.length
decreasing_by
  all_goals simp only [List.length_take, List.length_drop]
  all_goals omega

theorem gmerge_base {α : Type} (flo fhi : α → α → α) (asc : Bool) (v : List α)
    (h : v.length ≤ 1) : gmerge flo fhi asc v = v := by
  rw [gmerge, if_pos h]

theorem gmerge_step {α : Type} (flo fhi : α → α → α) (asc : Bool) (v : List α)
    (h : ¬ v.length ≤ 1) :
    gmerge flo fhi asc v =
      gmerge flo fhi asc (List.zipWith (fun a b => if asc then flo a b else fhi a b)
          (v.take (v.length / 2)) (v.drop (v.length / 2))) ++
        gmerge flo fhi asc (List.zipWith (fun a b => if asc then fhi b a else flo b a)
          (v.take (v.length / 2)) (v.drop (v.length / 2))) := by
  conv_lhs => rw [gmerge]
  rw [if_neg h]

theorem gsort_base {α : Type} (flo fhi : α → α → α) (asc : Bool) (v : List α)
    (h : v.length ≤ 1) : gsort flo fhi asc v = v := by
  rw [gsort, if_pos h]

theorem gsort_step {α : Type} (flo fhi : α → α → α) (asc : Bool) (v : List α)
    (h : ¬ v.length ≤ 1) :
    gsort flo fhi asc v =
      gmerge flo fhi asc (gsort flo fhi true (v.take (v.length / 2)) ++
        gsort flo fhi false (v.drop (v.length / 2))) := by
  conv_lhs => rw [gsort]
  rw [if_neg h]

theorem mem_zipWith {α : Type} {g : α → α → α} : ∀ {l1 l2 : List α} {y : α},
    y ∈ List.zipWith g l1 l2 → ∃ a, a ∈ l1 ∧ ∃ b, b ∈ l2 ∧ y = g a b := by
  intro l1
  induction l1 with
  | nil => intro l2 y h; simp at h
  | cons x t ih =>
    intro l2 y h
    cases l2 with
    | nil => simp at h
    | cons z u =>
      rcases h with _ | h2
      · exact ⟨x, by simp, z, by simp⟩
      · obtain ⟨a, ha, b, hb, rfl⟩ := ih (by assumption)
        exact ⟨a, by simp [ha], b, by simp [hb], rfl⟩

theorem gmerge_length {α : Type} (flo fhi : α → α → α) (asc : Bool) :
    ∀ (t : ℕ) (v : List α), v.length = 2 ^ t → (gmerge flo fhi asc v).length = v.length := by
  intro t
  induction t with
  | zero =>
    intro v hv
    rw [gmerge_base _ _ _ _ (by omega)]
  | succ t ih =>
    intro v hv
    have h2 : ¬ v.length ≤ 1 := by
      have := Nat.one_lt_two_pow_iff.mpr (Nat.succ_ne_zero t)
      omega
    have hs : v.length / 2 = 2 ^ t := by
      rw [hv, pow_succ]
      omega
    have hzl : (List.zipWith (fun a b => if asc then flo a b else fhi a b)
        (v.take (v.length / 2)) (v.drop (v.length / 2))).length = 2 ^ t := by
      simp only [List.length_zipWith, List.length_take, List.length_drop]
      omega
    have hzh : (List.zipWith (fun a b => if asc then fhi b a else flo b a)
        (v.take (v.length / 2)) (v.drop (v.length / 2))).length = 2 ^ t := by
      simp only [List.length_zipWith, List.length_take, List.length_drop]
      omega
    rw [gmerge_step _ _ _ _ h2, List.length_append, ih _ hzl, ih _ hzh, hzl, hzh,
      hv, pow_succ]
    omega

theorem gsort_length {α : Type} (flo fhi : α → α → α) :
    ∀ (t : ℕ) (asc : Bool) (v : List α), v.length = 2 ^ t →
      (gsort flo fhi asc v).length = v.length := by
  intro t
  induction t with
  | zero =>
    intro asc v hv
    rw [gsort_base _ _ _ _ (by omega)]
  | succ t ih =>
    intro asc v hv
    have h2 : ¬ v.length ≤ 1 := by
      have := Nat.one_lt_two_pow_iff.mpr (Nat.succ_ne_zero t)
      omega
    have hs : v.length / 2 = 2 ^ t := by
      rw [hv, pow_succ]
      omega
    have htk : (v.take (v.length / 2)).length = 2 ^ t := by
      simp only [List.length_take]
      omega
    have hdr : (v.drop (v.length / 2)).length = 2 ^ t := by
      simp only [List.length_drop]
      omega
    have happ : (gsort flo fhi true (v.take (v.length / 2)) ++
        gsort flo fhi false (v.drop (v.length / 2))).length = 2 ^ (t + 1) := by
      rw [List.length_append, ih true _ htk, ih false _ hdr, htk, hdr, pow_succ]
      omega
    rw [gsort_step _ _ _ _ h2, gmerge_length flo fhi asc (t + 1) _ happ, happ, hv]

theorem gmerge_invariant {α : Type} {flo fhi : α → α → α} {Q : α → Prop}
    (hflo : ∀ a b, Q a → Q b → Q (flo a b)) (hfhi : ∀ a b, Q a → Q b → Q (fhi a b))
    (asc : Bool) :
    ∀ (t : ℕ) (v : List α), v.length = 2 ^ t → (∀ x ∈ v, Q x) →
      ∀ y ∈ gmerge flo fhi asc v, Q y := by
  intro t
  induction t with
  | zero =>
    intro v hv hQ y hy
    rw [gmerge_base _ _ _ _ (by omega)] at hy
    exact hQ y hy
  | succ t ih =>
    intro v hv hQ y hy
    have h2 : ¬ v.length ≤ 1 := by
      have := Nat.one_lt_two_pow_iff.mpr (Nat.succ_ne_zero t)
      omega
    rw [gmerge_step _ _ _ _ h2] at hy
    have hmemz : ∀ (g : α → α → α), (∀ a b, Q a → Q b → Q (g a b)) →
        ∀ z ∈ List.zipWith g (v.take (v.length / 2)) (v.drop (v.length / 2)), Q z := by
      intro g hg z hz
      obtain ⟨a, ha, b, hb, rfl⟩ := mem_zipWith hz
      exact hg a b (hQ a (List.mem_of_mem_take ha)) (hQ b (List.mem_of_mem_drop hb))
    have hlen : ∀ (g : α → α → α),
        (List.zipWith g (v.take (v.length / 2)) (v.drop (v.length / 2))).length = 2 ^ t := by
      intro g
      simp only [List.length_zipWith, List.length_take, List.length_drop]
      rw [hv, pow_succ]
      omega
    rcases List.mem_append.mp hy with hy2 | hy2
    · refine ih _ (hlen _) (hmemz _ ?_) y hy2
      intro a b ha hb
      cases asc
      · exact hfhi a b ha hb
      · exact hflo a b ha hb
    · refine ih _ (hlen _) (hmemz _ ?_) y hy2
      intro a b ha hb
      cases asc
      · exact hflo b a hb ha
      · exact hfhi b a hb ha

theorem gsort_invariant {α : Type} {flo fhi : α → α → α} {Q : α → Prop}
    (hflo : ∀ a b, Q a → Q b → Q (flo a b)) (hfhi : ∀ a b, Q a → Q b → Q (fhi a b))
    (asc : Bool) :
    ∀ (t : ℕ) (v : List α), v.length = 2 ^ t → (∀ x ∈ v, Q x) →
      ∀ y ∈ gsort flo fhi asc v, Q y := by
  intro t
  induction t generalizing asc with
  | zero =>
    intro v hv hQ y hy
    rw [gsort_base _ _ _ _ (by omega)] at hy
    exact hQ y hy
  | succ t ih =>
    intro v hv hQ y hy
    have h2 : ¬ v.length ≤ 1 := by
      have := Nat.one_lt_two_pow_iff.mpr (Nat.succ_ne_zero t)
      omega
    have htk : (v.take (v.length / 2)).length = 2 ^ t := by
      simp only [List.length_take]
      rw [hv, pow_succ]
      omega
    have hdr : (v.drop (v.length / 2)).length = 2 ^ t := by
      simp only [List.length_drop]
      rw [hv, pow_succ]
      omega
    rw [gsort_step _ _ _ _ h2] at hy
    have happ : (gsort flo fhi true (v.take (v.length / 2)) ++
        gsort flo fhi false (v.drop (v.length / 2))).length = 2 ^ (t + 1) := by
      rw [List.length_append, gsort_length flo fhi t true _ htk,
        gsort_length flo fhi t false _ hdr, htk, hdr, pow_succ]
      omega
    refine gmerge_invariant hflo hfhi asc (t + 1) _ happ ?_ y hy
    intro z hz
    rcases List.mem_append.mp hz with hz2 | hz2
    · exact ih true _ htk (fun x hx => hQ x (List.mem_of_mem_take hx)) z hz2
    · exact ih false _ hdr (fun x hx => hQ x (List.mem_of_mem_drop hx)) z hz2

theorem zipWith_congr_mem {α β : Type} {g1 g2 : α → α → β} :
    ∀ (l1 l2 : List α), (∀ a ∈ l1, ∀ b ∈ l2, g1 a b = g2 a b) →
      List.zipWith g1 l1 l2 = List.zipWith g2 l1 l2 := by
  intro l1
  induction l1 with
  | nil => intro l2 _; simp
  | cons x t ih =>
    intro l2 h
    cases l2 with
    | nil => simp
    | cons z u =>
      simp only [List.zipWith_cons_cons]
      rw [h x (by simp) z (by simp), ih u fun a ha b hb => h a (by simp [ha]) b (by simp [hb])]

theorem zipWith_map_map {α β : Type} (g : α → β) (gg2 : β → β → β) :
    ∀ (l1 l2 : List α), List.zipWith gg2 (l1.map g) (l2.map g) =
      List.zipWith (fun a b => gg2 (g a) (g b)) l1 l2 := by
  intro l1
  induction l1 with
  | nil => intro l2; simp
  | cons x t ih =>
    intro l2
    cases l2 <;> simp [ih]

/-- Monotone-map commutation: a map `g` that is a homomorphism for the
comparators on a class `Q` commutes with the whole merge network on
vectors of `Q`-elements. -/
theorem gmerge_map {α β : Type} {flo fhi : α → α → α} {flo2 fhi2 : β → β → β}
    {g : α → β} {Q : α → Prop}
    (hQlo : ∀ a b, Q a → Q b → Q (flo a b)) (hQhi : ∀ a b, Q a → Q b → Q (fhi a b))
    (hglo : ∀ a b, Q a → Q b → g (flo a b) = flo2 (g a) (g b))
    (hghi : ∀ a b, Q a → Q b → g (fhi a b) = fhi2 (g a) (g b)) (asc : Bool) :
    ∀ (t : ℕ) (v : List α), v.length = 2 ^ t → (∀ x ∈ v, Q x) →
      (gmerge flo fhi asc v).map g = gmerge flo2 fhi2 asc (v.map g) := by
  intro t
  induction t with
  | zero =>
    intro v hv hQ
    rw [gmerge_base _ _ _ _ (by omega), gmerge_base _ _ _ _ (by simp [hv])]
  | succ t ih =>
    intro v hv hQ
    have h2 : ¬ v.length ≤ 1 := by
      have := Nat.one_lt_two_pow_iff.mpr (Nat.succ_ne_zero t)
      omega
    have h2g : ¬ (v.map g).length ≤ 1 := by
      simpa using h2
    have hslen : (v.map g).length = v.length := by simp
    have hQf1 : ∀ a b, Q a → Q b → Q (if asc then flo a b else fhi a b) := by
      intro a b ha hb
      cases asc
      · exact hQhi a b ha hb
      · exact hQlo a b ha hb
    have hQf2 : ∀ a b, Q a → Q b → Q (if asc then fhi b a else flo b a) := by
      intro a b ha hb
      cases asc
      · exact hQlo b a hb ha
      · exact hQhi b a hb ha
    have hgf1 : ∀ a b, Q a → Q b → g (if asc then flo a b else fhi a b) =
        (if asc then flo2 (g a) (g b) else fhi2 (g a) (g b)) := by
      intro a b ha hb
      cases asc
      · exact hghi a b ha hb
      · exact hglo a b ha hb
    have hgf2 : ∀ a b, Q a → Q b → g (if asc then fhi b a else flo b a) =
        (if asc then fhi2 (g b) (g a) else flo2 (g b) (g a)) := by
      intro a b ha hb
      cases asc
      · exact hglo b a hb ha
      · exact hghi b a hb ha
    rw [gmerge_step _ _ _ _ h2, gmerge_step _ _ _ _ h2g, List.map_append]
    have hmemz : ∀ (gg : α → α → α), (∀ a b, Q a → Q b → Q (gg a b)) →
        ∀ z ∈ List.zipWith gg (v.take (v.length / 2)) (v.drop (v.length / 2)), Q z := by
      intro gg hg z hz
      obtain ⟨a, ha, b, hb, rfl⟩ := mem_zipWith hz
      exact hg a b (hQ a (List.mem_of_mem_take ha)) (hQ b (List.mem_of_mem_drop hb))
    have hlen : ∀ (gg : α → α → α),
        (List.zipWith gg (v.take (v.length / 2)) (v.drop (v.length / 2))).length = 2 ^ t := by
      intro gg
      simp only [List.length_zipWith, List.length_take, List.length_drop]
      rw [hv, pow_succ]
      omega
    have hmap : ∀ (gg : α → α → α) (gg2 : β → β → β),
        (∀ a b, Q a → Q b → g (gg a b) = gg2 (g a) (g b)) →
        (List.zipWith gg (v.take (v.length / 2)) (v.drop (v.length / 2))).map g =
          List.zipWith gg2 ((v.map g).take ((v.map g).length / 2))
            ((v.map g).drop ((v.map g).length / 2)) := by
      intro gg gg2 hgg
      rw [hslen, ← List.map_take, ← List.map_drop, zipWith_map_map, List.map_zipWith]
      apply zipWith_congr_mem
      intro a ha b hb
      exact hgg a b (hQ a (List.mem_of_mem_take ha)) (hQ b (List.mem_of_mem_drop hb))
    congr 1
    · rw [ih _ (hlen _) (hmemz _ hQf1)]
      congr 1
      exact hmap _ _ hgf1
    · rw [ih _ (hlen _) (hmemz _ hQf2)]
      congr 1
      exact hmap _ _ hgf2

theorem gsort_map {α β : Type} {flo fhi : α → α → α} {flo2 fhi2 : β → β → β}
    {g : α → β} {Q : α → Prop}
    (hQlo : ∀ a b, Q a → Q b → Q (flo a b)) (hQhi : ∀ a b, Q a → Q b → Q (fhi a b))
    (hglo : ∀ a b, Q a → Q b → g (flo a b) = flo2 (g a) (g b))
    (hghi : ∀ a b, Q a → Q b → g (fhi a b) = fhi2 (g a) (g b)) (asc : Bool) :
    ∀ (t : ℕ) (v : List α), v.length = 2 ^ t → (∀ x ∈ v, Q x) →
      (gsort flo fhi asc v).map g = gsort flo2 fhi2 asc (v.map g) := by
  intro t
  induction t generalizing asc with
  | zero =>
    intro v hv hQ
    rw [gsort_base _ _ _ _ (by omega), gsort_base _ _ _ _ (by simp [hv])]
  | succ t ih =>
    intro v hv hQ
    have h2 : ¬ v.length ≤ 1 := by
      have := Nat.one_lt_two_pow_iff.mpr (Nat.succ_ne_zero t)
      omega
    have h2g : ¬ (v.map g).length ≤ 1 := by simpa using h2
    have hslen : (v.map g).length = v.length := by simp
    have htk : (v.take (v.length / 2)).length = 2 ^ t := by
      simp only [List.length_take]
      rw [hv, pow_succ]
      omega
    have hdr : (v.drop (v.length / 2)).length = 2 ^ t := by
      simp only [List.length_drop]
      rw [hv, pow_succ]
      omega
    have happ : (gsort flo fhi true (v.take (v.length / 2)) ++
        gsort flo fhi false (v.drop (v.length / 2))).length = 2 ^ (t + 1) := by
      rw [List.length_append, gsort_length flo fhi t true _ htk,
        gsort_length flo fhi t false _ hdr, htk, hdr, pow_succ]
      omega
    rw [gsort_step _ _ _ _ h2, gsort_step _ _ _ _ h2g]
    rw [gmerge_map hQlo hQhi hglo hghi asc (t + 1) _ happ]
    · congr 1
      rw [List.map_append, hslen, ← List.map_take, ← List.map_drop,
        ih true _ htk (fun x hx => hQ x (List.mem_of_mem_take hx)),
        ih false _ hdr (fun x hx => hQ x (List.mem_of_mem_drop hx))]
    · intro z hz
      rcases List.mem_append.mp hz with hz2 | hz2
      · exact gsort_invariant hQlo hQhi true t _ htk
          (fun x hx => hQ x (List.mem_of_mem_take hx)) z hz2
      · exact gsort_invariant hQlo hQhi false t _ hdr
          (fun x hx => hQ x (List.mem_of_mem_drop hx)) z hz2

/-! ### Threshold counts of merge-select rounds

Fix a threshold `c`.  A sorted partition of length `L` is determined, as
far as the order relative to `c` is concerned, by how many of its entries
are `≤ c`.  Merging two sorted partitions with counts `p` and `q` and
keeping the low half yields count `min L (p + q)`; keeping the high half
yields `p + q - L`.  The distributed network therefore projects onto a
network on count vectors with these two saturating comparators; the local
element sort is the special case `L = 1` (an element is a singleton
partition).  -/

def cntLow (L a b : ℕ) : ℕ := min L (a + b)

def cntHigh (L a b : ℕ) : ℕ := a + b - L

/-- A count vector describing a globally descending arrangement of the
per-partition counts: once an entry is below `L`, every later entry is `0`.
Concatenating sorted partitions whose `≤ c` counts form a `DStair` for
every `c` yields a globally ascending sequence. -/
def DStair (L : ℕ) (v : List ℕ) : Prop := List.Pairwise (fun p q => 0 < q → p = L) v

/-- Mirror image of `DStair`. -/
def AStair (L : ℕ) (v : List ℕ) : Prop := List.Pairwise (fun p q => 0 < p → q = L) v

/-- The canonical representative of count vectors reachable inside a
bitonic merge: a block of `0`s, one free value, a block of `L`s, one free
value. -/
def canon (L a x b y : ℕ) : List ℕ :=
  List.replicate a 0 ++ x :: (List.replicate b L ++ [y])

/-- Count vectors whose cyclic rotations include a `canon` shape (or that
are too short to matter).  This class contains every concatenation of a
`DStair` and an `AStair`, and is preserved by the half-cleaner step of the
count network. -/
def CycC (L : ℕ) (v : List ℕ) : Prop :=
  v.length ≤ 1 ∨ ∃ n a x b y, x ≤ L ∧ y ≤ L ∧ v.rotate n = canon L a x b y

/-- Sums of antipodal pairs: entry `i` is `v[i] + v[i + len/2]`. -/
def asums (v : List ℕ) : List ℕ :=
  List.zipWith (· + ·) (v.take (v.length / 2)) (v.drop (v.length / 2))

theorem canon_length (L a x b y : ℕ) : (canon L a x b y).length = a + b + 2 := by
  simp [canon]
  omega

theorem asums_length (v : List ℕ) : (asums v).length = v.length / 2 := by
  simp only [asums, List.length_zipWith, List.length_take, List.length_drop]
  omega

theorem asums_of_halves {T D : List ℕ} {s : ℕ} (hT : T.length = s) (hD : D.length = s) :
    asums (T ++ D) = List.zipWith (· + ·) T D := by
  have hlen : (T ++ D).length = 2 * s := by
    rw [List.length_append, hT, hD]
    omega
  have hhalf : (T ++ D).length / 2 = s := by
    rw [hlen]
    omega
  unfold asums
  rw [hhalf, List.take_left' hT, List.drop_left' hT]

theorem getElem_asums (v : List ℕ) (s i : ℕ) (hlen : v.length = 2 * s) (hi : i < s)
    (h1 : i < v.length) (h2 : s + i < v.length) (ha : i < (asums v).length) :
    (asums v)[i] = v[i] + v[s + i] := by
  have hhalf : v.length / 2 = s := by omega
  unfold asums
  rw [List.getElem_zipWith]
  congr 1
  · rw [List.getElem_take]
  · rw [List.getElem_drop]
    congr 1
    omega

theorem mod_two_mul_eq_or (x s : ℕ) (hs : 0 < s) :
    x % (2 * s) = x % s ∨ x % (2 * s) = x % s + s := by
  have hdvd : s ∣ 2 * s := ⟨2, by ring⟩
  have h1 : x % (2 * s) % s = x % s := Nat.mod_mod_of_dvd x hdvd
  have h2 : x % (2 * s) < 2 * s := Nat.mod_lt x (by omega)
  rcases lt_or_le (x % (2 * s)) s with h3 | h3
  · left
    rw [← h1, Nat.mod_eq_of_lt h3]
  · right
    have h4 : x % (2 * s) = s + (x % (2 * s) - s) := by omega
    have h5 : x % (2 * s) % s = (x % (2 * s) - s) % s := by
      conv_lhs => rw [h4]
      exact Nat.add_mod_left s _
    have h6 : (x % (2 * s) - s) % s = x % (2 * s) - s :=
      Nat.mod_eq_of_lt (by omega)
    rw [h6] at h5
    omega

theorem asums_rotate (v : List ℕ) (s n : ℕ) (hlen : v.length = 2 * s) (hs : 0 < s) :
    asums (v.rotate n) = (asums v).rotate n := by
  have hrotlen : (v.rotate n).length = 2 * s := by
    rw [List.length_rotate, hlen]
  have hlas : (asums v).length = s := by
    rw [asums_length, hlen]
    omega
  have hlas2 : (asums (v.rotate n)).length = s := by
    rw [asums_length, hrotlen]
    omega
  apply List.ext_getElem
  · rw [hlas2, List.length_rotate, hlas]
  · intro i hi1 hi2
    have his : i < s := by omega
    rw [getElem_asums (v.rotate n) s i hrotlen his (by omega) (by omega) hi1,
      List.getElem_rotate, List.getElem_rotate, List.getElem_rotate]
    have hidx : (i + n) % (asums v).length = (i + n) % s := by rw [hlas]
    simp only [hidx]
    have hr : (i + n) % s < s := Nat.mod_lt (i + n) (by omega)
    rw [getElem_asums v s ((i + n) % s) hlen hr (by omega) (by omega) (by omega)]
    have hq : (i + n) % v.length = (i + n) % (2 * s) := by rw [hlen]
    have hq2 : (s + i + n) % v.length = (s + i + n) % (2 * s) := by rw [hlen]
    have e2 : ((i + n) + s) % (2 * s) = ((i + n) % (2 * s) + s) % (2 * s) := by
      conv_lhs => rw [← Nat.mod_add_mod]
    have e1 : s + i + n = (i + n) + s := by omega
    rcases mod_two_mul_eq_or (i + n) s hs with hc | hc
    · have hc2 : (s + i + n) % (2 * s) = (i + n) % s + s := by
        rw [e1, e2, hc]
        exact Nat.mod_eq_of_lt (by omega)
      have hgoal1 : (i + n) % v.length = (i + n) % s := by rw [hq, hc]
      have hgoal2 : (s + i + n) % v.length = s + (i + n) % s := by
        rw [hq2, hc2]
        omega
      simp only [hgoal1, hgoal2]
    · have hc2 : (s + i + n) % (2 * s) = (i + n) % s := by
        rw [e1, e2, hc]
        have e3 : (i + n) % s + s + s = (i + n) % s + 2 * s := by omega
        rw [e3, Nat.add_mod_right]
        exact Nat.mod_eq_of_lt (by omega)
      have hgoal1 : (i + n) % v.length = s + (i + n) % s := by
        rw [hq, hc]
        omega
      have hgoal2 : (s + i + n) % v.length = (i + n) % s := by rw [hq2, hc2]
      simp only [hgoal1, hgoal2]
      exact Nat.add_comm _ _

theorem replicate_of_rotate {v : List ℕ} {n s c : ℕ}
    (h : v.rotate n = List.replicate s c) : v = List.replicate s c := by
  have hp : List.Perm v (List.replicate s c) := by
    have h2 := List.rotate_perm v n
    rw [h] at h2
    exact h2.symm
  rw [List.eq_replicate_iff]
  exact ⟨by rw [hp.length_eq, List.length_replicate],
    fun b hb => List.eq_of_mem_replicate (hp.subset hb)⟩

theorem cycc_of_rotate {L : ℕ} {v : List ℕ} {n : ℕ} (h : CycC L (v.rotate n)) :
    CycC L v := by
  rcases h with h | ⟨n2, a, x, b, y, hx, hy, hrot⟩
  · left
    rw [List.length_rotate] at h
    exact h
  · right
    rw [List.rotate_rotate] at hrot
    exact ⟨n + n2, a, x, b, y, hx, hy, hrot⟩

theorem zip_add_replicate_zero : ∀ (l : List ℕ) (s : ℕ), l.length = s →
    List.zipWith (· + ·) (List.replicate s 0) l = l := by
  intro l
  induction l with
  | nil => intro s hs; subst hs; rfl
  | cons x t ih =>
    intro s hs
    cases s with
    | zero => simp at hs
    | succ s2 =>
      rw [List.replicate_succ, List.zipWith_cons_cons, ih s2 (by simpa using hs)]
      simp

theorem map_sub_self_replicate {X : List ℕ} {L s : ℕ} (hlen : X.length = s)
    (hb : ∀ z ∈ X, z ≤ L) : X.map (fun z => z - L) = List.replicate s 0 := by
  rw [List.eq_replicate_iff]
  refine ⟨by simpa using hlen, ?_⟩
  intro w hw
  obtain ⟨z, hz, rfl⟩ := List.mem_map.mp hw
  have := hb z hz
  omega

theorem map_min_self {X : List ℕ} {L : ℕ} (hb : ∀ z ∈ X, z ≤ L) :
    X.map (fun z => min L z) = X := by
  have h : X.map (fun z => min L z) = X.map id := by
    apply List.map_congr_left
    intro z hz
    exact min_eq_right (hb z hz)
  rw [h, List.map_id]

theorem map_min_replicate_L {X : List ℕ} {L s : ℕ} (hlen : X.length = s)
    (hb : ∀ z ∈ X, L ≤ z) : X.map (fun z => min L z) = List.replicate s L := by
  rw [List.eq_replicate_iff]
  refine ⟨by simpa using hlen, ?_⟩
  intro w hw
  obtain ⟨z, hz, rfl⟩ := List.mem_map.mp hw
  exact min_eq_left (hb z hz)

theorem canon_bounded {L a x b y : ℕ} (hx : x ≤ L) (hy : y ≤ L) :
    ∀ z ∈ canon L a x b y, z ≤ L := by
  intro z hz
  simp only [canon, List.mem_append, List.mem_cons, List.mem_replicate,
    List.mem_singleton] at hz
  rcases hz with ⟨_, rfl⟩ | rfl | ⟨_, rfl⟩ | rfl | h0
  · omega
  · exact hx
  · exact le_rfl
  · exact hy
  · simp at h0

/-- Dichotomy and closure of the half-cleaner step, canonical shape: the
antipodal sums of a `canon`-shaped count vector are either all `≤ L`
(then the keep-high counts vanish and the capped sums are again of class
`CycC`) or all `≥ L` (then the capped sums saturate at `L` and the
keep-high counts are again of class `CycC`). -/
theorem canon_cycc_step (L a x b y s : ℕ) (hx : x ≤ L) (hy : y ≤ L)
    (hlen : a + b + 2 = 2 * s) :
    ((asums (canon L a x b y)).map (fun z => z - L) = List.replicate s 0 ∧
      CycC L ((asums (canon L a x b y)).map fun z => min L z)) ∨
    ((asums (canon L a x b y)).map (fun z => min L z) = List.replicate s L ∧
      CycC L ((asums (canon L a x b y)).map fun z => z - L)) := by
  have hs : 1 ≤ s := by omega
  rcases le_or_lt s a with hA | hA
  · -- the zero arc covers the whole lower half: all sums are `≤ L`
    have hcanon : canon L a x b y = List.replicate s 0 ++ canon L (a - s) x b y := by
      show List.replicate a 0 ++ x :: (List.replicate b L ++ [y]) =
        List.replicate s 0 ++ (List.replicate (a - s) 0 ++ x :: (List.replicate b L ++ [y]))
      rw [← List.append_assoc, ← List.replicate_add]
      have hss : s + (a - s) = a := by omega
      rw [hss]
    have hclen : (canon L (a - s) x b y).length = s := by
      rw [canon_length]
      omega
    have hasum : asums (canon L a x b y) = canon L (a - s) x b y := by
      rw [hcanon, asums_of_halves (by simp) hclen, zip_add_replicate_zero _ s hclen]
    have hbound := canon_bounded (a := a - s) (b := b) hx hy
    left
    constructor
    · rw [hasum]
      exact map_sub_self_replicate hclen hbound
    · rw [hasum, map_min_self hbound]
      right
      exact ⟨0, a - s, x, b, y, hx, hy, by rw [List.rotate_zero]⟩
  rcases le_or_lt s b with hB | hB
  · -- the `L` arc covers the whole upper half: all sums are `≥ L`
    have ha2 : a + 2 ≤ s := by omega
    have hsplit1 : List.replicate (s - 1) L =
        List.replicate a L ++ (L :: List.replicate (s - a - 2) L) := by
      rw [show s - 1 = a + (s - a - 1) from by omega, List.replicate_add]
      congr 1
      rw [show s - a - 1 = (s - a - 2) + 1 from by omega]
      rfl
    have hcanon : canon L a x b y =
        (List.replicate a 0 ++ x :: List.replicate (s - a - 1) L) ++
          (List.replicate (s - 1) L ++ [y]) := by
      show List.replicate a 0 ++ x :: (List.replicate b L ++ [y]) = _
      rw [show b = (s - a - 1) + (s - 1) from by omega, List.replicate_add]
      simp [List.append_assoc]
      rw [List.replicate_add, List.append_assoc]
    have hT : (List.replicate a 0 ++ x :: List.replicate (s - a - 1) L).length = s := by
      simp
      omega
    have hD : (List.replicate (s - 1) L ++ [y]).length = s := by
      simp
      omega
    have hD2 : List.replicate (s - 1) L ++ [y] =
        List.replicate a L ++ (L :: (List.replicate (s - a - 2) L ++ [y])) := by
      rw [hsplit1, List.append_assoc, List.cons_append]
    have hsplit2 : List.replicate (s - a - 1) L = List.replicate (s - a - 2) L ++ [L] := by
      rw [show s - a - 1 = (s - a - 2) + 1 from by omega, List.replicate_succ']
    have hasum : asums (canon L a x b y) =
        List.replicate a L ++ (x + L) :: (List.replicate (s - a - 2) (L + L) ++ [L + y]) := by
      rw [hcanon, asums_of_halves hT hD, hD2]
      have hz1 := List.zipWith_append (· + · : ℕ → ℕ → ℕ) (List.replicate a 0)
        (x :: List.replicate (s - a - 1) L) (List.replicate a L)
        (L :: (List.replicate (s - a - 2) L ++ [y])) (by simp)
      rw [hz1, List.zipWith_cons_cons, hsplit2]
      have hz2 := List.zipWith_append (· + · : ℕ → ℕ → ℕ) (List.replicate (s - a - 2) L)
        [L] (List.replicate (s - a - 2) L) [y] (by simp)
      rw [hz2]
      simp
    have hlen2 : (asums (canon L a x b y)).length = s := by
      rw [asums_length, canon_length]
      omega
    have hge : ∀ z ∈ asums (canon L a x b y), L ≤ z := by
      rw [hasum]
      intro z hz
      simp only [List.mem_append, List.mem_cons, List.mem_replicate,
        List.mem_singleton] at hz
      rcases hz with ⟨_, rfl⟩ | rfl | ⟨_, rfl⟩ | rfl | h0
      · exact le_rfl
      · omega
      · omega
      · omega
      · simp at h0
    right
    constructor
    · exact map_min_replicate_L hlen2 hge
    · have hmap : (asums (canon L a x b y)).map (fun z => z - L) =
          canon L a x (s - a - 2) y := by
        rw [hasum]
        simp [canon, Nat.add_sub_cancel, Nat.sub_self]
      rw [hmap]
      right
      exact ⟨0, a, x, s - a - 2, y, hx, hy, by rw [List.rotate_zero]⟩
  · -- both arcs are short: `a = b = s - 1`, one antipodal pair is `(x, y)`
    have haeq : a = s - 1 := by omega
    have hbeq : b = s - 1 := by omega
    subst haeq
    subst hbeq
    have hcanon : canon L (s - 1) x (s - 1) y =
        (List.replicate (s - 1) 0 ++ [x]) ++ (List.replicate (s - 1) L ++ [y]) := by
      show List.replicate (s - 1) 0 ++ x :: (List.replicate (s - 1) L ++ [y]) = _
      simp [List.append_assoc]
    have hT : (List.replicate (s - 1) 0 ++ [x]).length = s := by
      simp
      omega
    have hD : (List.replicate (s - 1) L ++ [y]).length = s := by
      simp
      omega
    have hasum : asums (canon L (s - 1) x (s - 1) y) =
        List.replicate (s - 1) L ++ [x + y] := by
      rw [hcanon, asums_of_halves hT hD]
      have hz := List.zipWith_append (· + · : ℕ → ℕ → ℕ) (List.replicate (s - 1) 0) [x]
        (List.replicate (s - 1) L) [y] (by simp)
      rw [hz]
      simp
    have hlen2 : (asums (canon L (s - 1) x (s - 1) y)).length = s := by
      rw [asums_length, canon_length]
      omega
    rcases le_or_lt (x + y) L with hxy | hxy
    · left
      have hb2 : ∀ z ∈ asums (canon L (s - 1) x (s - 1) y), z ≤ L := by
        rw [hasum]
        intro z hz
        simp only [List.mem_append, List.mem_replicate, List.mem_singleton] at hz
        rcases hz with ⟨_, rfl⟩ | rfl
        · exact le_rfl
        · exact hxy
      constructor
      · exact map_sub_self_replicate hlen2 hb2
      · rw [hasum, map_min_self (by rw [hasum] at hb2; exact hb2)]
        rcases Nat.lt_or_ge s 2 with hs1 | hs2
        · left
          simp
          omega
        · right
          refine ⟨0, 0, L, s - 2, x + y, le_rfl, hxy, ?_⟩
          rw [List.rotate_zero]
          show List.replicate (s - 1) L ++ [x + y] =
            List.replicate 0 0 ++ L :: (List.replicate (s - 2) L ++ [x + y])
          rw [show s - 1 = (s - 2) + 1 from by omega, List.replicate_succ]
          simp
    · right
      have hge : ∀ z ∈ asums (canon L (s - 1) x (s - 1) y), L ≤ z := by
        rw [hasum]
        intro z hz
        simp only [List.mem_append, List.mem_replicate, List.mem_singleton] at hz
        rcases hz with ⟨_, rfl⟩ | rfl
        · exact le_rfl
        · omega
      constructor
      · exact map_min_replicate_L hlen2 hge
      · have hmap : (asums (canon L (s - 1) x (s - 1) y)).map (fun z => z - L) =
            List.replicate (s - 1) 0 ++ [x + y - L] := by
          rw [hasum]
          simp [Nat.sub_self]
        rw [hmap]
        rcases Nat.lt_or_ge s 2 with hs1 | hs2
        · left
          simp
          omega
        · right
          refine ⟨0, s - 2, 0, 0, x + y - L, by omega, by omega, ?_⟩
          rw [List.rotate_zero]
          show List.replicate (s - 1) 0 ++ [x + y - L] =
            List.replicate (s - 2) 0 ++ 0 :: (List.replicate 0 L ++ [x + y - L])
          rw [show s - 1 = (s - 2) + 1 from by omega, List.replicate_succ']
          simp

/-- Dichotomy and closure, transferred to every `CycC` vector through
rotation equivariance of the antipodal sums. -/
theorem cycc_step (L s : ℕ) (v : List ℕ) (hlen : v.length = 2 * s) (hs : 1 ≤ s)
    (hc : CycC L v) :
    ((asums v).map (fun z => z - L) = List.replicate s 0 ∧
      CycC L ((asums v).map fun z => min L z)) ∨
    ((asums v).map (fun z => min L z) = List.replicate s L ∧
      CycC L ((asums v).map fun z => z - L)) := by
  rcases hc with hshort | ⟨n, a, x, b, y, hx, hy, hrot⟩
  · omega
  · have hclen : a + b + 2 = 2 * s := by
      have h1 := congrArg List.length hrot
      rw [List.length_rotate, canon_length, hlen] at h1
      omega
    have hrotsum : asums (canon L a x b y) = (asums v).rotate n := by
      rw [← hrot, asums_rotate v s n hlen (by omega)]
    have hstep := canon_cycc_step L a x b y s hx hy hclen
    rw [hrotsum] at hstep
    rcases hstep with ⟨h1, h2⟩ | ⟨h1, h2⟩
    · left
      rw [List.map_rotate] at h1 h2
      exact ⟨replicate_of_rotate h1, cycc_of_rotate h2⟩
    · right
      rw [List.map_rotate] at h1 h2
      exact ⟨replicate_of_rotate h1, cycc_of_rotate h2⟩

theorem pairwise_of_short {α : Type} {R : α → α → Prop} (l : List α) (h : l.length ≤ 1) :
    List.Pairwise R l := by
  match l with
  | [] => exact List.Pairwise.nil
  | [a] => simp
  | a :: b :: t => simp at h

theorem pairwise_replicate_of {α : Type} {R : α → α → Prop} (c : α) (h : R c c) (n : ℕ) :
    List.Pairwise R (List.replicate n c) := by
  induction n with
  | zero => simp
  | succ n ih =>
    rw [List.replicate_succ]
    refine List.Pairwise.cons ?_ ih
    intro b hb
    rw [List.eq_of_mem_replicate hb]
    exact h

theorem gmerge_replicate {α : Type} (flo fhi : α → α → α) (asc : Bool) (c : α)
    (hlo : flo c c = c) (hhi : fhi c c = c) (t : ℕ) :
    gmerge flo fhi asc (List.replicate (2 ^ t) c) = List.replicate (2 ^ t) c := by
  have hlen : (List.replicate (2 ^ t) c).length = 2 ^ t := by simp
  have hmem : ∀ y ∈ gmerge flo fhi asc (List.replicate (2 ^ t) c), y = c := by
    refine gmerge_invariant ?_ ?_ asc t _ hlen ?_
    · intro a b ha hb
      subst ha
      subst hb
      exact hlo
    · intro a b ha hb
      subst ha
      subst hb
      exact hhi
    · intro x hx
      exact List.eq_of_mem_replicate hx
  have hglen : (gmerge flo fhi asc (List.replicate (2 ^ t) c)).length = 2 ^ t := by
    rw [gmerge_length flo fhi asc t _ hlen, hlen]
  exact List.eq_replicate.mpr ⟨hglen, hmem⟩

theorem asums_map_comb (g : ℕ → ℕ) (v : List ℕ) :
    (asums v).map g =
      List.zipWith (fun a b => g (a + b)) (v.take (v.length / 2)) (v.drop (v.length / 2)) := by
  unfold asums
  rw [List.map_zipWith]

theorem asums_mem_le {L : ℕ} {v : List ℕ} (hb : ∀ x ∈ v, x ≤ L) :
    ∀ z ∈ asums v, z ≤ L + L := by
  intro z hz
  obtain ⟨a, ha, b, hbm, rfl⟩ := mem_zipWith (g := (· + ·)) hz
  have h1 := hb a (List.mem_of_mem_take ha)
  have h2 := hb b (List.mem_of_mem_drop hbm)
  omega

theorem dstair_append_zero {L : ℕ} {d : List ℕ} (n : ℕ) (hd : DStair L d) :
    DStair L (d ++ List.replicate n 0) := by
  rw [DStair, List.pairwise_append]
  refine ⟨hd, pairwise_replicate_of 0 (by omega) n, ?_⟩
  intro p _ q hq
  rw [List.eq_of_mem_replicate hq]
  omega

theorem dstair_L_append {L : ℕ} {d : List ℕ} (n : ℕ) (hd : DStair L d) :
    DStair L (List.replicate n L ++ d) := by
  rw [DStair, List.pairwise_append]
  refine ⟨pairwise_replicate_of L (fun _ => rfl) n, hd, ?_⟩
  intro p hp q _ _
  exact List.eq_of_mem_replicate hp

theorem astair_zero_append {L : ℕ} {d : List ℕ} (n : ℕ) (hd : AStair L d) :
    AStair L (List.replicate n 0 ++ d) := by
  rw [AStair, List.pairwise_append]
  refine ⟨pairwise_replicate_of 0 (by omega) n, hd, ?_⟩
  intro p hp q _ hpos
  rw [List.eq_of_mem_replicate hp] at hpos
  omega

theorem astair_append_L {L : ℕ} {d : List ℕ} (n : ℕ) (hd : AStair L d) :
    AStair L (d ++ List.replicate n L) := by
  rw [AStair, List.pairwise_append]
  refine ⟨hd, pairwise_replicate_of L (fun _ => rfl) n, ?_⟩
  intro p _ q hq _
  exact List.eq_of_mem_replicate hq

/-- Every nonempty bounded `DStair` count vector is a block of `L`s, one
free value, then a block of `0`s. -/
theorem dstair_structure (L : ℕ) : ∀ (v : List ℕ), v ≠ [] → (∀ z ∈ v, z ≤ L) →
    DStair L v → ∃ a x b, x ≤ L ∧ v = List.replicate a L ++ x :: List.replicate b 0 := by
  intro v
  induction v with
  | nil => intro h; exact absurd rfl h
  | cons h t ih =>
    intro _ hb hd
    rw [DStair, List.pairwise_cons] at hd
    obtain ⟨hrel, ht⟩ := hd
    rcases List.eq_nil_or_concat t with rfl | _
    · exact ⟨0, h, 0, hb h (by simp), by simp⟩
    · have htne : t ≠ [] := by
        rename_i hc
        obtain ⟨l2, c, rfl⟩ := hc
        simp
      by_cases hh : h = L
      · obtain ⟨a, x, b, hx, hteq⟩ := ih htne (fun z hz => hb z (by simp [hz])) ht
        refine ⟨a + 1, x, b, hx, ?_⟩
        rw [hteq, hh, List.replicate_succ]
        simp
      · have hall0 : ∀ q ∈ t, q = 0 := by
          intro q hq
          by_contra hq0
          exact hh (hrel q hq (by omega))
        refine ⟨0, h, t.length, hb h (by simp), ?_⟩
        simp only [List.replicate, List.nil_append]
        congr 1
        exact List.eq_replicate.mpr ⟨rfl, hall0⟩

/-- Every nonempty bounded `AStair` count vector is a block of `0`s, one
free value, then a block of `L`s. -/
theorem astair_structure (L : ℕ) : ∀ (v : List ℕ), v ≠ [] → (∀ z ∈ v, z ≤ L) →
    AStair L v → ∃ a x b, x ≤ L ∧ v = List.replicate a 0 ++ x :: List.replicate b L := by
  intro v
  induction v with
  | nil => intro h; exact absurd rfl h
  | cons h t ih =>
    intro _ hb ha
    rw [AStair, List.pairwise_cons] at ha
    obtain ⟨hrel, ht⟩ := ha
    rcases List.eq_nil_or_concat t with rfl | _
    · exact ⟨0, h, 0, hb h (by simp), by simp⟩
    · have htne : t ≠ [] := by
        rename_i hc
        obtain ⟨l2, c, rfl⟩ := hc
        simp
      by_cases hh : h = 0
      · obtain ⟨a, x, b, hx, hteq⟩ := ih htne (fun z hz => hb z (by simp [hz])) ht
        refine ⟨a + 1, x, b, hx, ?_⟩
        rw [hteq, hh, List.replicate_succ]
        simp
      · have hallL : ∀ q ∈ t, q = L := by
          intro q hq
          exact hrel q hq (by omega)
        refine ⟨0, h, t.length, hb h (by simp), ?_⟩
        simp only [List.replicate, List.nil_append]
        congr 1
        exact List.eq_replicate.mpr ⟨rfl, hallL⟩

/-- A `DStair` followed by an `AStair` lies in the cyclic class: rotating
past the leading `L`-block and the free value exposes the canonical shape. -/
theorem dstair_astair_cycc (L : ℕ) (A B : List ℕ) (hAne : A ≠ []) (hBne : B ≠ [])
    (hAb : ∀ z ∈ A, z ≤ L) (hBb : ∀ z ∈ B, z ≤ L) (hA : DStair L A) (hB : AStair L B) :
    CycC L (A ++ B) := by
  obtain ⟨a, x, b, hx, hAeq⟩ := dstair_structure L A hAne hAb hA
  obtain ⟨a2, x2, b2, hx2, hBeq⟩ := astair_structure L B hBne hBb hB
  right
  refine ⟨a + 1, b + a2, x2, b2 + a, x, hx2, hx, ?_⟩
  have hPS : A ++ B = (List.replicate a L ++ [x]) ++
      (List.replicate (b + a2) 0 ++ x2 :: List.replicate b2 L) := by
    rw [hAeq, hBeq, List.replicate_add]
    simp only [List.cons_append, List.singleton_append, List.append_assoc, List.nil_append]
  have hP : (List.replicate a L ++ [x]).length = a + 1 := by simp
  have hlenle : a + 1 ≤ (A ++ B).length := by
    rw [hPS]
    simp
  rw [List.rotate_eq_drop_append_take hlenle, hPS, ← hP, List.drop_left, List.take_left]
  simp only [canon, List.replicate_add, List.cons_append, List.singleton_append,
    List.append_assoc]

/-- Core invariant of the ascending count merge: on a cyclic-class input the
merge network produces a descending staircase. -/
theorem cnt_gmerge_true (L : ℕ) : ∀ (t : ℕ) (v : List ℕ), v.length = 2 ^ t →
    (∀ z ∈ v, z ≤ L) → CycC L v →
    DStair L (gmerge (cntLow L) (cntHigh L) true v) := by
  intro t
  induction t with
  | zero =>
    intro v hv _ _
    rw [gmerge_base _ _ _ _ (by omega)]
    exact pairwise_of_short v (by omega)
  | succ t ih =>
    intro v hv hb hcyc
    have h2 : ¬ v.length ≤ 1 := by
      have := Nat.one_lt_two_pow_iff.mpr (Nat.succ_ne_zero t)
      omega
    have hlen2 : v.length = 2 * 2 ^ t := by
      rw [hv, pow_succ]
      omega
    have hsums : (asums v).length = 2 ^ t := by
      rw [asums_length]
      omega
    rw [gmerge_step _ _ _ _ h2]
    have hpl : List.zipWith (fun a b => if true then cntLow L a b else cntHigh L a b)
        (v.take (v.length / 2)) (v.drop (v.length / 2)) =
        (asums v).map (fun z => min L z) := by
      rw [asums_map_comb]
      apply zipWith_congr_mem
      intro a _ b _
      simp [cntLow]
    have hph : List.zipWith (fun a b => if true then cntHigh L b a else cntLow L b a)
        (v.take (v.length / 2)) (v.drop (v.length / 2)) =
        (asums v).map (fun z => z - L) := by
      rw [asums_map_comb]
      apply zipWith_congr_mem
      intro a _ b _
      simp [cntHigh, Nat.add_comm]
    rw [hpl, hph]
    rcases cycc_step L (2 ^ t) v hlen2 Nat.one_le_two_pow hcyc with ⟨h1, hc2⟩ | ⟨h1, hc2⟩
    · rw [h1, gmerge_replicate _ _ _ 0 (by simp [cntLow]) (by simp [cntHigh]) t]
      refine dstair_append_zero _ (ih _ ?_ ?_ hc2)
      · rw [List.length_map, hsums]
      · intro z hz
        obtain ⟨w, _, rfl⟩ := List.mem_map.mp hz
        exact min_le_left _ _
    · rw [h1, gmerge_replicate _ _ _ L (by simp [cntLow]) (by simp [cntHigh]) t]
      refine dstair_L_append _ (ih _ ?_ ?_ hc2)
      · rw [List.length_map, hsums]
      · intro z hz
        obtain ⟨w, hw, rfl⟩ := List.mem_map.mp hz
        have := asums_mem_le hb w hw
        omega

/-- Core invariant of the descending count merge: on a cyclic-class input
the merge network produces an ascending staircase. -/
theorem cnt_gmerge_false (L : ℕ) : ∀ (t : ℕ) (v : List ℕ), v.length = 2 ^ t →
    (∀ z ∈ v, z ≤ L) → CycC L v →
    AStair L (gmerge (cntLow L) (cntHigh L) false v) := by
  intro t
  induction t with
  | zero =>
    intro v hv _ _
    rw [gmerge_base _ _ _ _ (by omega)]
    exact pairwise_of_short v (by omega)
  | succ t ih =>
    intro v hv hb hcyc
    have h2 : ¬ v.length ≤ 1 := by
      have := Nat.one_lt_two_pow_iff.mpr (Nat.succ_ne_zero t)
      omega
    have hlen2 : v.length = 2 * 2 ^ t := by
      rw [hv, pow_succ]
      omega
    have hsums : (asums v).length = 2 ^ t := by
      rw [asums_length]
      omega
    rw [gmerge_step _ _ _ _ h2]
    have hpl : List.zipWith (fun a b => if false then cntLow L a b else cntHigh L a b)
        (v.take (v.length / 2)) (v.drop (v.length / 2)) =
        (asums v).map (fun z => z - L) := by
      rw [asums_map_comb]
      apply zipWith_congr_mem
      intro a _ b _
      simp [cntHigh]
    have hph : List.zipWith (fun a b => if false then cntHigh L b a else cntLow L b a)
        (v.take (v.length / 2)) (v.drop (v.length / 2)) =
        (asums v).map (fun z => min L z) := by
      rw [asums_map_comb]
      apply zipWith_congr_mem
      intro a _ b _
      simp [cntLow, Nat.add_comm]
    rw [hpl, hph]
    rcases cycc_step L (2 ^ t) v hlen2 Nat.one_le_two_pow hcyc with ⟨h1, hc2⟩ | ⟨h1, hc2⟩
    · rw [h1, gmerge_replicate _ _ _ 0 (by simp [cntLow]) (by simp [cntHigh]) t]
      refine astair_zero_append _ (ih _ ?_ ?_ hc2)
      · rw [List.length_map, hsums]
      · intro z hz
        obtain ⟨w, _, rfl⟩ := List.mem_map.mp hz
        exact min_le_left _ _
    · rw [h1, gmerge_replicate _ _ _ L (by simp [cntLow]) (by simp [cntHigh]) t]
      refine astair_append_L _ (ih _ ?_ ?_ hc2)
      · rw [List.length_map, hsums]
      · intro z hz
        obtain ⟨w, hw, rfl⟩ := List.mem_map.mp hz
        have := asums_mem_le hb w hw
        omega

/-- The staircase shape produced by a direction: descending for ascending
networks, ascending for descending ones. -/
def StairOf (L : ℕ) (asc : Bool) (v : List ℕ) : Prop :=
  if asc then DStair L v else AStair L v

/-- The full count sorting network turns any bounded count vector into the
staircase of its direction. -/
theorem cnt_gsort (L : ℕ) : ∀ (t : ℕ) (asc : Bool) (v : List ℕ), v.length = 2 ^ t →
    (∀ z ∈ v, z ≤ L) → StairOf L asc (gsort (cntLow L) (cntHigh L) asc v) := by
  intro t
  induction t with
  | zero =>
    intro asc v hv _
    rw [gsort_base _ _ _ _ (by omega)]
    cases asc
    · exact pairwise_of_short v (by omega)
    · exact pairwise_of_short v (by omega)
  | succ t ih =>
    intro asc v hv hb
    have h2 : ¬ v.length ≤ 1 := by
      have := Nat.one_lt_two_pow_iff.mpr (Nat.succ_ne_zero t)
      omega
    have htk : (v.take (v.length / 2)).length = 2 ^ t := by
      simp only [List.length_take]
      rw [hv, pow_succ]
      omega
    have hdr : (v.drop (v.length / 2)).length = 2 ^ t := by
      simp only [List.length_drop]
      rw [hv, pow_succ]
      omega
    have hQlo : ∀ a b : ℕ, a ≤ L → b ≤ L → cntLow L a b ≤ L := by
      intro a b _ _
      exact min_le_left _ _
    have hQhi : ∀ a b : ℕ, a ≤ L → b ≤ L → cntHigh L a b ≤ L := by
      intro a b ha hbb
      show a + b - L ≤ L
      omega
    have hA := ih true (v.take (v.length / 2)) htk
      (fun z hz => hb z (List.mem_of_mem_take hz))
    have hB := ih false (v.drop (v.length / 2)) hdr
      (fun z hz => hb z (List.mem_of_mem_drop hz))
    rw [StairOf, if_pos rfl] at hA
    rw [StairOf, if_neg (by simp)] at hB
    have hAlen : (gsort (cntLow L) (cntHigh L) true (v.take (v.length / 2))).length =
        2 ^ t := by
      rw [gsort_length _ _ t true _ htk, htk]
    have hBlen : (gsort (cntLow L) (cntHigh L) false (v.drop (v.length / 2))).length =
        2 ^ t := by
      rw [gsort_length _ _ t false _ hdr, hdr]
    have hAb : ∀ z ∈ gsort (cntLow L) (cntHigh L) true (v.take (v.length / 2)), z ≤ L :=
      gsort_invariant hQlo hQhi true t _ htk (fun z hz => hb z (List.mem_of_mem_take hz))
    have hBb : ∀ z ∈ gsort (cntLow L) (cntHigh L) false (v.drop (v.length / 2)), z ≤ L :=
      gsort_invariant hQlo hQhi false t _ hdr (fun z hz => hb z (List.mem_of_mem_drop hz))
    have hcyc : CycC L (gsort (cntLow L) (cntHigh L) true (v.take (v.length / 2)) ++
        gsort (cntLow L) (cntHigh L) false (v.drop (v.length / 2))) := by
      refine dstair_astair_cycc L _ _ ?_ ?_ hAb hBb hA hB
      · intro hnil
        rw [hnil] at hAlen
        simp at hAlen
        have := Nat.two_pow_pos t
        omega
      · intro hnil
        rw [hnil] at hBlen
        simp at hBlen
        have := Nat.two_pow_pos t
        omega
    have happlen : (gsort (cntLow L) (cntHigh L) true (v.take (v.length / 2)) ++
        gsort (cntLow L) (cntHigh L) false (v.drop (v.length / 2))).length = 2 ^ (t + 1) := by
      rw [List.length_append, hAlen, hBlen, pow_succ]
      omega
    have happb : ∀ z ∈ gsort (cntLow L) (cntHigh L) true (v.take (v.length / 2)) ++
        gsort (cntLow L) (cntHigh L) false (v.drop (v.length / 2)), z ≤ L := by
      intro z hz
      rcases List.mem_append.mp hz with hz2 | hz2
      · exact hAb z hz2
      · exact hBb z hz2
    rw [gsort_step _ _ _ _ h2]
    cases asc
    · rw [StairOf, if_neg (by simp)]
      exact cnt_gmerge_false L (t + 1) _ happlen happb hcyc
    · rw [StairOf, if_pos rfl]
      exact cnt_gmerge_true L (t + 1) _ happlen happb hcyc

/-! ### The distributed exchange network (`bitonicMPI_fixed.c:143-163`)

In every round `(k, j)` of the schedule all ranks act in lockstep: rank
`r` exchanges its partition with `partner = r ^ j` and keeps the half
selected by `keep_low(r, k, j)`.  The synchronous rounds are modelled as
a transformation of the list of all `P` partitions. -/

/-- One exchange round for all ranks (`bitonicMPI_fixed.c:145-159`): rank
`r` replaces its partition by
`merge_and_select(local, recv_buf, len, keep_low)` with
`recv_buf = local_{r ^ j}`. -/
def exchangeRound (len k j : ℕ) (W : List (List ℤ)) : List (List ℤ) :=
  (List.range W.length).map fun rank =>
    merge_and_select (W.getD rank []) (W.getD (rank ^^^ j) []) len (keep_low rank k j)

/-- The full distributed exchange network: every round of the `(k, j)`
schedule in order (`bitonicMPI_fixed.c:143-144`). -/
def runNetwork (P len : ℕ) (W : List (List ℤ)) : List (List ℤ) :=
  (schedule P).foldl (fun V kj => exchangeRound len kj.1 kj.2 V) W

/-- One exchange round, generic in the two comparators applied when a rank
keeps the low half (`flo`) or the high half (`fhi`), acting on the block of
ranks that starts at global rank offset `o`. -/
def roundOff {α : Type} (d : α) (flo fhi : α → α → α) (o k j : ℕ) (W : List α) :
    List α :=
  (List.range W.length).map fun r =>
    if keep_low (o + r) k j then flo (W.getD r d) (W.getD (r ^^^ j) d)
    else fhi (W.getD r d) (W.getD (r ^^^ j) d)

/-- The generic network on the block of ranks starting at offset `o`. -/
def netOff {α : Type} (d : α) (flo fhi : α → α → α) (o P : ℕ) (W : List α) : List α :=
  (schedule P).foldl (fun V kj => roundOff d flo fhi o kj.1 kj.2 V) W

theorem roundOff_length {α : Type} (d : α) (flo fhi : α → α → α) (o k j : ℕ)
    (W : List α) : (roundOff d flo fhi o k j W).length = W.length := by
  simp [roundOff]

theorem exchangeRound_eq_roundOff (len k j : ℕ) (W : List (List ℤ)) :
    exchangeRound len k j W =
      roundOff [] (fun a b => merge_and_select a b len true)
        (fun a b => merge_and_select a b len false) 0 k j W := by
  unfold exchangeRound roundOff
  apply List.map_congr_left
  intro r _
  rw [Nat.zero_add]
  cases h : keep_low r k j
  · simp
  · simp

theorem getD_append_low {α : Type} (A B : List α) (d : α) (r : ℕ) (h : r < A.length) :
    (A ++ B).getD r d = A.getD r d := by
  rw [List.getD_eq_getElem?_getD, List.getD_eq_getElem?_getD,
    List.getElem?_append_left h]

theorem getD_append_high {α : Type} (A B : List α) (d : α) (r : ℕ) (h : A.length ≤ r) :
    (A ++ B).getD r d = B.getD (r - A.length) d := by
  rw [List.getD_eq_getElem?_getD, List.getD_eq_getElem?_getD,
    List.getElem?_append_right h]

theorem keep_low_of_bit_false (x t k : ℕ) (hx : x.testBit t = false) :
    keep_low x k (2 ^ t) = ascending_block x k := by
  simp only [keep_low, lower_partner_eq, hx]
  cases ascending_block x k <;> rfl

theorem keep_low_of_bit_true (x t k : ℕ) (hx : x.testBit t = true) :
    keep_low x k (2 ^ t) = !ascending_block x k := by
  simp only [keep_low, lower_partner_eq, hx]
  cases ascending_block x k <;> rfl

theorem xor_two_pow_of_lt {r t : ℕ} (hr : r < 2 ^ t) : r ^^^ 2 ^ t = 2 ^ t + r := by
  have h := add_xor_of_lt 1 0 r t (Nat.two_pow_pos t) hr
  rw [Nat.xor_comm]
  simpa using h

/-- Splitting one round over two aligned half-blocks: for an exchange
distance smaller than the block size the round acts on each half
independently, the upper half seeing its own rank offset. -/
theorem roundOff_append {α : Type} (d : α) (flo fhi : α → α → α) (o k j M : ℕ)
    (hj : j < 2 ^ M) (A B : List α) (hA : A.length = 2 ^ M) (hB : B.length = 2 ^ M) :
    roundOff d flo fhi o k j (A ++ B) =
      roundOff d flo fhi o k j A ++ roundOff d flo fhi (o + 2 ^ M) k j B := by
  have hlen : (A ++ B).length = 2 ^ M + 2 ^ M := by simp [hA, hB]
  unfold roundOff
  rw [hlen, hA, hB, List.range_add, List.map_append, List.map_map]
  congr 1
  · apply List.map_congr_left
    intro r hr
    rw [List.mem_range] at hr
    have hxj : r ^^^ j < 2 ^ M := Nat.xor_lt_two_pow hr hj
    rw [getD_append_low A B d r (by omega), getD_append_low A B d (r ^^^ j) (by omega)]
  · apply List.map_congr_left
    intro r hr
    rw [List.mem_range] at hr
    simp only [Function.comp_apply]
    have hxj : r ^^^ j < 2 ^ M := Nat.xor_lt_two_pow hr hj
    have hadd : o + (2 ^ M + r) = o + 2 ^ M + r := by omega
    have hxor : (2 ^ M + r) ^^^ j = 2 ^ M + (r ^^^ j) := by
      have h := add_xor_of_lt 1 r j M hr hj
      simpa using h
    have hgd1 : (A ++ B).getD (2 ^ M + r) d = B.getD r d := by
      rw [getD_append_high A B d (2 ^ M + r) (by omega), hA]
      congr 1
      omega
    have hgd2 : (A ++ B).getD (2 ^ M + (r ^^^ j)) d = B.getD (r ^^^ j) d := by
      rw [getD_append_high A B d (2 ^ M + (r ^^^ j)) (by omega), hA]
      congr 1
      omega
    rw [hadd, hxor, hgd1, hgd2]

/-- Splitting a run of rounds with a fixed `k` over two aligned
half-blocks. -/
theorem foldJs_split {α : Type} (d : α) (flo fhi : α → α → α) (M k : ℕ) :
    ∀ (js : List ℕ), (∀ j ∈ js, j < 2 ^ M) → ∀ (o : ℕ) (A B : List α),
      A.length = 2 ^ M → B.length = 2 ^ M →
      js.foldl (fun V j => roundOff d flo fhi o k j V) (A ++ B) =
        js.foldl (fun V j => roundOff d flo fhi o k j V) A ++
          js.foldl (fun V j => roundOff d flo fhi (o + 2 ^ M) k j V) B := by
  intro js
  induction js with
  | nil =>
    intro _ o A B _ _
    rfl
  | cons p t ih =>
    intro h o A B hA hB
    simp only [List.foldl_cons]
    rw [roundOff_append d flo fhi o k p M (h p (by simp)) A B hA hB]
    exact ih (fun q hq => h q (by simp [hq])) o _ _
      (by rw [roundOff_length, hA]) (by rw [roundOff_length, hB])

/-- Splitting a run of schedule rounds over two aligned half-blocks. -/
theorem foldPairs_split {α : Type} (d : α) (flo fhi : α → α → α) (M : ℕ) :
    ∀ (js : List (ℕ × ℕ)), (∀ p ∈ js, p.2 < 2 ^ M) → ∀ (o : ℕ) (A B : List α),
      A.length = 2 ^ M → B.length = 2 ^ M →
      js.foldl (fun V kj => roundOff d flo fhi o kj.1 kj.2 V) (A ++ B) =
        js.foldl (fun V kj => roundOff d flo fhi o kj.1 kj.2 V) A ++
          js.foldl (fun V kj => roundOff d flo fhi (o + 2 ^ M) kj.1 kj.2 V) B := by
  intro js
  induction js with
  | nil =>
    intro _ o A B _ _
    rfl
  | cons p t ih =>
    intro h o A B hA hB
    simp only [List.foldl_cons]
    rw [roundOff_append d flo fhi o p.1 p.2 M (h p (by simp)) A B hA hB]
    exact ih (fun q hq => h q (by simp [hq])) o _ _
      (by rw [roundOff_length, hA]) (by rw [roundOff_length, hB])

theorem jSeq_pow_mem (t : ℕ) : ∀ j ∈ jSeq (2 ^ t), ∃ b, b ≤ t ∧ j = 2 ^ b := by
  induction t with
  | zero =>
    rw [jSeq_pow]
    intro j hj
    rcases List.mem_cons.mp hj with rfl | hj2
    · exact ⟨0, le_rfl, rfl⟩
    · rw [show (2 : ℕ) ^ 0 / 2 = 0 from rfl, jSeq] at hj2
      simp at hj2
  | succ t ih =>
    rw [jSeq_pow, two_pow_succ_div_two]
    intro j hj
    rcases List.mem_cons.mp hj with rfl | hj2
    · exact ⟨t + 1, le_rfl, rfl⟩
    · obtain ⟨b, hb, rfl⟩ := ih j hj2
      exact ⟨b, by omega, rfl⟩

theorem schedule_pow_mem (m : ℕ) :
    ∀ p ∈ schedule (2 ^ m), ∃ b c, p = (2 ^ c, 2 ^ b) ∧ b < c ∧ c ≤ m := by
  induction m with
  | zero =>
    rw [pow_zero, schedule_one]
    intro p hp
    simp at hp
  | succ m ih =>
    rw [schedule_pow_succ_split]
    intro p hp
    rcases List.mem_append.mp hp with h1 | h1
    · obtain ⟨b, c, rfl, hbc, hcm⟩ := ih p h1
      exact ⟨b, c, rfl, hbc, by omega⟩
    · obtain ⟨j, hj, rfl⟩ := List.mem_map.mp h1
      obtain ⟨b, hb, rfl⟩ := jSeq_pow_mem m j hj
      exact ⟨b, m + 1, rfl, by omega, le_rfl⟩

theorem schedule_pow_mem_snd_lt (m : ℕ) : ∀ p ∈ schedule (2 ^ m), p.2 < 2 ^ m := by
  intro p hp
  obtain ⟨b, c, rfl, hbc, hcm⟩ := schedule_pow_mem m p hp
  exact Nat.pow_lt_pow_right one_lt_two (by omega)

/-- The first round of a phase (`j = 2^t` on a block of `2^(t+1)` ranks of
constant block direction) is exactly the half-cleaner stage of `gmerge`. -/
theorem roundOff_first {α : Type} (d : α) (flo fhi : α → α → α) (t o k : ℕ) (asc : Bool)
    (W : List α) (hW : W.length = 2 ^ (t + 1)) (ho : 2 ^ (t + 1) ∣ o)
    (hasc : ∀ x, x < 2 ^ (t + 1) → ascending_block (o + x) k = asc) :
    roundOff d flo fhi o k (2 ^ t) W =
      List.zipWith (fun a b => if asc then flo a b else fhi a b)
        (W.take (2 ^ t)) (W.drop (2 ^ t)) ++
      List.zipWith (fun a b => if asc then fhi b a else flo b a)
        (W.take (2 ^ t)) (W.drop (2 ^ t)) := by
  obtain ⟨q, hq⟩ := ho
  have hW2 : W.length = 2 ^ t + 2 ^ t := by
    rw [hW, pow_succ]
    omega
  have htk : (W.take (2 ^ t)).length = 2 ^ t := by
    simp [hW2]
  have hdr : (W.drop (2 ^ t)).length = 2 ^ t := by
    simp [hW2]
  unfold roundOff
  rw [hW2, List.range_add, List.map_append, List.map_map]
  congr 1
  · apply List.ext_getElem
    · simp [hW2]
    intro i h1 h2
    rw [List.length_map, List.length_range] at h1
    have hiW : i < W.length := by omega
    have hiW2 : 2 ^ t + i < W.length := by omega
    have hbit : (o + i).testBit t = false := by
      rw [hq, testBit_mul_add_low q i t (t + 1) (by omega), Nat.testBit_lt_two_pow h1]
    have hkl : keep_low (o + i) k (2 ^ t) = asc := by
      rw [keep_low_of_bit_false _ _ _ hbit, hasc i (by omega)]
    have hxor : i ^^^ 2 ^ t = 2 ^ t + i := xor_two_pow_of_lt h1
    have hg1 : W.getD i d = W[i] := List.getD_eq_getElem W d hiW
    have hg2 : W.getD (i ^^^ 2 ^ t) d = W[2 ^ t + i] := by
      rw [hxor]
      exact List.getD_eq_getElem W d hiW2
    rw [List.getElem_map, List.getElem_range, List.getElem_zipWith, hkl, hg1, hg2]
    have hgt : (W.take (2 ^ t))[i] = W[i] := by
      rw [List.getElem_take]
    have hgd : (W.drop (2 ^ t))[i] = W[2 ^ t + i] := by
      rw [List.getElem_drop]
    rw [hgt, hgd]
  · apply List.ext_getElem
    · simp [hW2]
    intro i h1 h2
    rw [List.length_map, List.length_range] at h1
    have hiW : i < W.length := by omega
    have hiW2 : 2 ^ t + i < W.length := by omega
    have hbit : (o + (2 ^ t + i)).testBit t = true := by
      rw [hq, testBit_mul_add_low q (2 ^ t + i) t (t + 1) (by omega),
        Nat.testBit_two_pow_add_eq, Nat.testBit_lt_two_pow h1]
      rfl
    have hkl : keep_low (o + (2 ^ t + i)) k (2 ^ t) = !asc := by
      rw [keep_low_of_bit_true _ _ _ hbit, hasc (2 ^ t + i) (by rw [pow_succ]; omega)]
    have hxor : (2 ^ t + i) ^^^ 2 ^ t = i := by
      rw [← xor_two_pow_of_lt h1, Nat.xor_cancel_right]
    have hg1 : W.getD (2 ^ t + i) d = W[2 ^ t + i] := List.getD_eq_getElem W d hiW2
    have hg2 : W.getD ((2 ^ t + i) ^^^ 2 ^ t) d = W[i] := by
      rw [hxor]
      exact List.getD_eq_getElem W d hiW
    rw [List.getElem_map, List.getElem_range, List.getElem_zipWith]
    simp only [Function.comp_apply]
    rw [hkl, hg1, hg2]
    have hgt : (W.take (2 ^ t))[i] = W[i] := by
      rw [List.getElem_take]
    have hgd : (W.drop (2 ^ t))[i] = W[2 ^ t + i] := by
      rw [List.getElem_drop]
    rw [hgt, hgd]
    cases asc <;> rfl

/-- A full phase (`j = 2^t, …, 1` with fixed `k`) on a block of constant
direction is the whole bitonic merge network `gmerge`. -/
theorem phase_fold {α : Type} (d : α) (flo fhi : α → α → α) :
    ∀ (t o k : ℕ) (asc : Bool) (W : List α), W.length = 2 ^ (t + 1) →
      2 ^ (t + 1) ∣ o → (∀ x, x < 2 ^ (t + 1) → ascending_block (o + x) k = asc) →
      (jSeq (2 ^ t)).foldl (fun V j => roundOff d flo fhi o k j V) W =
        gmerge flo fhi asc W := by
  intro t
  induction t with
  | zero =>
    intro o k asc W hW ho hasc
    have hWlen : W.length = 2 := by
      rw [hW]
      rfl
    have hj1 : jSeq (2 ^ 0) = [2 ^ 0] := by
      rw [jSeq_pow, show (2 : ℕ) ^ 0 / 2 = 0 from rfl, jSeq]
      simp
    rw [hj1]
    simp only [List.foldl_cons, List.foldl_nil]
    rw [roundOff_first d flo fhi 0 o k asc W hW ho hasc]
    have h2 : ¬ W.length ≤ 1 := by omega
    rw [gmerge_step flo fhi asc W h2]
    have hhalf : W.length / 2 = 2 ^ 0 := by
      rw [hWlen]
      norm_num
    rw [hhalf]
    have hlen1 : (List.zipWith (fun a b => if asc then flo a b else fhi a b)
        (W.take (2 ^ 0)) (W.drop (2 ^ 0))).length = 1 := by
      simp [hWlen]
    have hlen2 : (List.zipWith (fun a b => if asc then fhi b a else flo b a)
        (W.take (2 ^ 0)) (W.drop (2 ^ 0))).length = 1 := by
      simp [hWlen]
    rw [gmerge_base _ _ _ _ (by omega), gmerge_base _ _ _ _ (by omega)]
  | succ t ih =>
    intro o k asc W hW ho hasc
    have hpos : (1 : ℕ) ≤ 2 ^ (t + 1) := Nat.one_le_two_pow
    have h2 : ¬ W.length ≤ 1 := by
      rw [hW]
      have := Nat.one_lt_two_pow_iff.mpr (Nat.succ_ne_zero (t + 1))
      omega
    rw [jSeq_pow, two_pow_succ_div_two]
    simp only [List.foldl_cons]
    rw [roundOff_first d flo fhi (t + 1) o k asc W hW ho hasc]
    have htk : (W.take (2 ^ (t + 1))).length = 2 ^ (t + 1) := by
      simp only [List.length_take, hW, pow_succ]
      omega
    have hdr : (W.drop (2 ^ (t + 1))).length = 2 ^ (t + 1) := by
      simp only [List.length_drop, hW, pow_succ]
      omega
    have hPL : (List.zipWith (fun a b => if asc then flo a b else fhi a b)
        (W.take (2 ^ (t + 1))) (W.drop (2 ^ (t + 1)))).length = 2 ^ (t + 1) := by
      simp only [List.length_zipWith, htk, hdr]
      omega
    have hPH : (List.zipWith (fun a b => if asc then fhi b a else flo b a)
        (W.take (2 ^ (t + 1))) (W.drop (2 ^ (t + 1)))).length = 2 ^ (t + 1) := by
      simp only [List.length_zipWith, htk, hdr]
      omega
    have hjmem : ∀ j ∈ jSeq (2 ^ t), j < 2 ^ (t + 1) := by
      intro j hj
      obtain ⟨b, hb, rfl⟩ := jSeq_pow_mem t j hj
      exact Nat.pow_lt_pow_right one_lt_two (by omega)
    rw [foldJs_split d flo fhi (t + 1) k (jSeq (2 ^ t)) hjmem o _ _ hPL hPH]
    obtain ⟨q, hq⟩ := ho
    have ho1 : 2 ^ (t + 1) ∣ o := by
      refine ⟨2 * q, ?_⟩
      rw [hq, pow_succ]
      ring
    have ho2 : 2 ^ (t + 1) ∣ o + 2 ^ (t + 1) := by
      obtain ⟨w, hw⟩ := ho1
      exact ⟨w + 1, by rw [hw]; ring⟩
    have hasc1 : ∀ x, x < 2 ^ (t + 1) → ascending_block (o + x) k = asc := by
      intro x hx
      refine hasc x ?_
      have : (2 : ℕ) ^ (t + 1) < 2 ^ (t + 2) := Nat.pow_lt_pow_right one_lt_two (by omega)
      omega
    have hasc2 : ∀ x, x < 2 ^ (t + 1) → ascending_block (o + 2 ^ (t + 1) + x) k = asc := by
      intro x hx
      have hadd : o + 2 ^ (t + 1) + x = o + (2 ^ (t + 1) + x) := by omega
      rw [hadd]
      refine hasc (2 ^ (t + 1) + x) ?_
      rw [pow_succ]
      omega
    rw [ih o k asc _ hPL ho1 hasc1, ih (o + 2 ^ (t + 1)) k asc _ hPH ho2 hasc2]
    rw [gmerge_step flo fhi asc W h2]
    have hhalf : W.length / 2 = 2 ^ (t + 1) := by
      rw [hW, pow_succ]
      omega
    rw [hhalf]

/-- A block of `2^M` ranks at an aligned offset `o` running the full
`2^M`-process schedule performs exactly the recursive bitonic sort, in the
direction given by bit `M` of the offset. -/
theorem netOff_eq_gsort {α : Type} (d : α) (flo fhi : α → α → α) :
    ∀ (M o : ℕ), 2 ^ M ∣ o → ∀ (W : List α), W.length = 2 ^ M →
      netOff d flo fhi o (2 ^ M) W = gsort flo fhi (!o.testBit M) W := by
  intro M
  induction M with
  | zero =>
    intro o _ W hW
    rw [netOff, pow_zero, schedule_one, List.foldl_nil,
      gsort_base _ _ _ _ (by omega)]
  | succ M ih =>
    intro o ho W hW
    obtain ⟨q, rfl⟩ := ho
    have hbitM : ∀ w : ℕ, (2 ^ M * w).testBit M = w.testBit 0 := by
      intro w
      rw [mul_comm, ← Nat.shiftLeft_eq, Nat.testBit_shiftLeft]
      simp
    have hbitM1 : ∀ w : ℕ, (2 ^ (M + 1) * w).testBit (M + 1) = w.testBit 0 := by
      intro w
      rw [mul_comm, ← Nat.shiftLeft_eq, Nat.testBit_shiftLeft]
      simp
    have hW2 : W.length = 2 ^ M + 2 ^ M := by
      rw [hW, pow_succ]
      omega
    have htk : (W.take (2 ^ M)).length = 2 ^ M := by
      simp [hW2]
    have hdr : (W.drop (2 ^ M)).length = 2 ^ M := by
      simp [hW2]
    rw [netOff, schedule_pow_succ_split, List.foldl_append]
    have hWsplit : W = W.take (2 ^ M) ++ W.drop (2 ^ M) := (List.take_append_drop _ _).symm
    conv_lhs => rw [hWsplit]
    rw [foldPairs_split d flo fhi M (schedule (2 ^ M)) (schedule_pow_mem_snd_lt M)
      (2 ^ (M + 1) * q) _ _ htk hdr]
    have hihA := ih (2 ^ (M + 1) * q) ⟨2 * q, by ring⟩ (W.take (2 ^ M)) htk
    have hihB := ih (2 ^ (M + 1) * q + 2 ^ M) ⟨2 * q + 1, by ring⟩ (W.drop (2 ^ M)) hdr
    have hbA : (2 ^ (M + 1) * q).testBit M = false := by
      rw [show 2 ^ (M + 1) * q = 2 ^ M * (2 * q) from by ring, hbitM]
      rw [Nat.testBit_zero]
      simp [Nat.mul_mod_right]
    have hbB : (2 ^ (M + 1) * q + 2 ^ M).testBit M = true := by
      rw [show 2 ^ (M + 1) * q + 2 ^ M = 2 ^ M * (2 * q + 1) from by ring, hbitM]
      rw [Nat.testBit_zero]
      simp [Nat.add_mul_mod_self_left]
      omega
    rw [hbA] at hihA
    rw [hbB] at hihB
    simp only [Bool.not_false, Bool.not_true] at hihA hihB
    unfold netOff at hihA hihB
    rw [hihA, hihB, List.foldl_map]
    have happlen : (gsort flo fhi true (W.take (2 ^ M)) ++
        gsort flo fhi false (W.drop (2 ^ M))).length = 2 ^ (M + 1) := by
      rw [List.length_append, gsort_length flo fhi M true _ htk,
        gsort_length flo fhi M false _ hdr, htk, hdr, pow_succ]
      omega
    have hasc : ∀ x, x < 2 ^ (M + 1) →
        ascending_block (2 ^ (M + 1) * q + x) (2 ^ (M + 1)) = !q.testBit 0 := by
      intro x hx
      rw [ascending_block_eq, testBit_mul_add_high q x (M + 1) (M + 1) hx le_rfl,
        hbitM1]
    rw [phase_fold d flo fhi M (2 ^ (M + 1) * q) (2 ^ (M + 1)) (!q.testBit 0) _
      happlen ⟨q, rfl⟩ hasc]
    have h2 : ¬ W.length ≤ 1 := by
      rw [hW]
      have := Nat.one_lt_two_pow_iff.mpr (Nat.succ_ne_zero M)
      omega
    rw [gsort_step flo fhi _ W h2]
    have hhalf : W.length / 2 = 2 ^ M := by
      rw [hW, pow_succ]
      omega
    rw [hhalf, hbitM1]

/-- The distributed exchange network of `main` equals the recursive
bitonic sorting network on the list of partitions, ascending. -/
theorem runNetwork_eq_gsort (m len : ℕ) (W : List (List ℤ)) (hW : W.length = 2 ^ m) :
    runNetwork (2 ^ m) len W =
      gsort (fun a b => merge_and_select a b len true)
        (fun a b => merge_and_select a b len false) true W := by
  have h1 : runNetwork (2 ^ m) len W =
      netOff [] (fun a b => merge_and_select a b len true)
        (fun a b => merge_and_select a b len false) 0 (2 ^ m) W := by
    unfold runNetwork netOff
    have hfun : (fun (V : List (List ℤ)) (kj : ℕ × ℕ) => exchangeRound len kj.1 kj.2 V) =
        fun V kj => roundOff [] (fun a b => merge_and_select a b len true)
          (fun a b => merge_and_select a b len false) 0 kj.1 kj.2 V := by
      funext V kj
      exact exchangeRound_eq_roundOff len kj.1 kj.2 V
    rw [hfun]
  rw [h1, netOff_eq_gsort [] _ _ m 0 (Dvd.intro 0 rfl) W hW, Nat.zero_testBit,
    Bool.not_false]

/-! ### Projecting partitions to threshold counts -/

/-- Number of entries `≤ c` in a partition. -/
def countAt (c : ℤ) (l : List ℤ) : ℕ :=
  (l.filter fun z => decide (z ≤ c)).length

theorem countAt_le_length (c : ℤ) (l : List ℤ) : countAt c l ≤ l.length :=
  List.length_filter_le _ l

theorem countAt_append (c : ℤ) (a b : List ℤ) :
    countAt c (a ++ b) = countAt c a + countAt c b := by
  simp [countAt, List.filter_append]

theorem countAt_perm (c : ℤ) {a b : List ℤ} (h : a.Perm b) : countAt c a = countAt c b :=
  (h.filter _).length_eq

theorem countAt_sublist (c : ℤ) {a b : List ℤ} (h : List.Sublist a b) :
    countAt c a ≤ countAt c b :=
  (h.filter _).length_le

theorem countAt_pos_of_mem {c : ℤ} {l : List ℤ} (h : c ∈ l) : 0 < countAt c l := by
  have hm : c ∈ l.filter fun z => decide (z ≤ c) :=
    List.mem_filter.mpr ⟨h, by simp⟩
  have := List.length_pos.mpr (List.ne_nil_of_mem hm)
  exact this

theorem countAt_eq_length_all_le {c : ℤ} {l : List ℤ} (h : countAt c l = l.length) :
    ∀ x ∈ l, x ≤ c := by
  have hsub : List.Sublist (l.filter fun z => decide (z ≤ c)) l := List.filter_sublist l
  have heq : l.filter (fun z => decide (z ≤ c)) = l := hsub.eq_of_length h
  intro x hx
  have := List.filter_eq_self.mp heq x hx
  simpa using this

/-- On a sorted list, the entries `≤ c` form an initial run, so counting
them in a length-`L` prefix saturates at `L`. -/
theorem countAt_take_sorted (c : ℤ) :
    ∀ (s : List ℤ), s.Sorted (· ≤ ·) → ∀ (L : ℕ),
      countAt c (s.take L) = min L (countAt c s) := by
  intro s
  induction s with
  | nil =>
    intro _ L
    simp [countAt]
  | cons x t ih =>
    intro hs L
    have hst := (List.sorted_cons.mp hs).2
    have hhead := (List.sorted_cons.mp hs).1
    cases L with
    | zero => simp [countAt]
    | succ L =>
      rw [List.take_succ_cons]
      by_cases hx : x ≤ c
      · have h1 : countAt c (x :: t.take L) = 1 + countAt c (t.take L) := by
          simp [countAt, List.filter_cons, hx]
          omega
        have h2 : countAt c (x :: t) = 1 + countAt c t := by
          simp [countAt, List.filter_cons, hx]
          omega
        rw [h1, h2, ih hst L]
        omega
      · have hall : ∀ z ∈ t, ¬ z ≤ c := by
          intro z hz hzc
          exact hx (le_trans (hhead z hz) hzc)
        have h0t : countAt c t = 0 := by
          simp only [countAt, List.length_eq_zero]
          rw [List.filter_eq_nil_iff]
          intro z hz
          simpa using hall z hz
        have h0tk : countAt c (t.take L) = 0 := by
          have := countAt_sublist c (List.take_sublist L t)
          omega
        have h1 : countAt c (x :: t.take L) = countAt c (t.take L) := by
          simp [countAt, List.filter_cons, hx]
        have h2 : countAt c (x :: t) = countAt c t := by
          simp [countAt, List.filter_cons, hx]
        rw [h1, h2]
        omega

/-- `merge_and_select` keeping the low half projects to the saturating
counter `cntLow` on threshold counts. -/
theorem countAt_mas_low (c : ℤ) {a b : List ℤ} (ha : a.Sorted (· ≤ ·))
    (hb : b.Sorted (· ≤ ·)) (len : ℕ) :
    countAt c (merge_and_select a b len true) =
      cntLow len (countAt c a) (countAt c b) := by
  show countAt c ((mergeLists a b).take len) = cntLow len (countAt c a) (countAt c b)
  rw [countAt_take_sorted c (mergeLists a b) (mergeLists_sorted ha hb) len,
    countAt_perm c (mergeLists_perm a b), countAt_append]
  rfl

/-- `merge_and_select` keeping the high half projects to the saturating
counter `cntHigh` on threshold counts. -/
theorem countAt_mas_high (c : ℤ) {a b : List ℤ} (ha : a.Sorted (· ≤ ·))
    (hb : b.Sorted (· ≤ ·)) (len : ℕ) :
    countAt c (merge_and_select a b len false) =
      cntHigh len (countAt c a) (countAt c b) := by
  have hsplit : countAt c (mergeLists a b) =
      countAt c ((mergeLists a b).take len) + countAt c ((mergeLists a b).drop len) := by
    rw [← countAt_append, List.take_append_drop]
  have htake := countAt_take_sorted c (mergeLists a b) (mergeLists_sorted ha hb) len
  have hperm : countAt c (mergeLists a b) = countAt c a + countAt c b := by
    rw [countAt_perm c (mergeLists_perm a b), countAt_append]
  show countAt c ((mergeLists a b).drop len) = cntHigh len (countAt c a) (countAt c b)
  show countAt c ((mergeLists a b).drop len) = countAt c a + countAt c b - len
  omega

/-! ### Multiset preservation through the network -/

theorem zip_union_flatten_perm (F G : List ℤ → List ℤ → List ℤ) (Q : List ℤ → Prop)
    (hFG : ∀ a b, Q a → Q b → (F a b ++ G a b).Perm (a ++ b)) :
    ∀ (f m : List (List ℤ)), f.length = m.length → (∀ x ∈ f, Q x) → (∀ x ∈ m, Q x) →
      ((List.zipWith F f m).flatten ++ (List.zipWith G f m).flatten).Perm
        (f.flatten ++ m.flatten) := by
  intro f
  induction f with
  | nil =>
    intro m hlen _ _
    cases m with
    | nil => simp
    | cons b m => simp at hlen
  | cons a f ih =>
    intro m hlen hf hm
    cases m with
    | nil => simp at hlen
    | cons b m =>
      simp only [List.zipWith_cons_cons, List.flatten_cons]
      rw [← Multiset.coe_eq_coe]
      simp only [← Multiset.coe_add]
      have h1 : ((F a b ++ G a b : List ℤ) : Multiset ℤ) = ((a ++ b : List ℤ) : Multiset ℤ) :=
        Multiset.coe_eq_coe.mpr (hFG a b (hf a (by simp)) (hm b (by simp)))
      have h2 : (((List.zipWith F f m).flatten ++ (List.zipWith G f m).flatten : List ℤ) :
            Multiset ℤ) = ((f.flatten ++ m.flatten : List ℤ) : Multiset ℤ) :=
        Multiset.coe_eq_coe.mpr (ih m (by simpa using hlen)
          (fun x hx => hf x (by simp [hx])) (fun x hx => hm x (by simp [hx])))
      simp only [← Multiset.coe_add] at h1 h2
      calc ((F a b : List ℤ) : Multiset ℤ) + ((List.zipWith F f m).flatten : List ℤ) +
            (((G a b : List ℤ) : Multiset ℤ) + ((List.zipWith G f m).flatten : List ℤ))
          = (((F a b : List ℤ) : Multiset ℤ) + ((G a b : List ℤ) : Multiset ℤ)) +
            (((List.zipWith F f m).flatten : List ℤ) +
              ((List.zipWith G f m).flatten : List ℤ)) := by
            rw [add_add_add_comm]
        _ = (((a : List ℤ) : Multiset ℤ) + ((b : List ℤ) : Multiset ℤ)) +
            (((f.flatten : List ℤ) : Multiset ℤ) + ((m.flatten : List ℤ) : Multiset ℤ)) := by
            rw [h1, h2]
        _ = ((a : List ℤ) : Multiset ℤ) + ((f.flatten : List ℤ) : Multiset ℤ) +
            (((b : List ℤ) : Multiset ℤ) + ((m.flatten : List ℤ) : Multiset ℤ)) := by
            rw [add_add_add_comm]

/-- The blockwise sortedness-and-length invariant of the network. -/
def SortedBlock (len : ℕ) (l : List ℤ) : Prop :=
  l.Sorted (· ≤ ·) ∧ l.length = len

theorem sortedBlock_mas_low (len : ℕ) : ∀ a b : List ℤ, SortedBlock len a →
    SortedBlock len b → SortedBlock len (merge_and_select a b len true) := by
  intro a b ha hb
  exact ⟨merge_and_select_sorted ha.1 hb.1 len true,
    merge_and_select_length ha.2 hb.2 true⟩

theorem sortedBlock_mas_high (len : ℕ) : ∀ a b : List ℤ, SortedBlock len a →
    SortedBlock len b → SortedBlock len (merge_and_select a b len false) := by
  intro a b ha hb
  exact ⟨merge_and_select_sorted ha.1 hb.1 len false,
    merge_and_select_length ha.2 hb.2 false⟩

/-- The bitonic merge network on blocks preserves the combined multiset. -/
theorem gmerge_flatten_perm (len : ℕ) (asc : Bool) :
    ∀ (t : ℕ) (v : List (List ℤ)), v.length = 2 ^ t →
      (∀ x ∈ v, SortedBlock len x) →
      ((gmerge (fun a b => merge_and_select a b len true)
          (fun a b => merge_and_select a b len false) asc v).flatten).Perm v.flatten := by
  intro t
  induction t with
  | zero =>
    intro v hv _
    rw [gmerge_base _ _ _ _ (by omega)]
  | succ t ih =>
    intro v hv hQ
    have h2 : ¬ v.length ≤ 1 := by
      have := Nat.one_lt_two_pow_iff.mpr (Nat.succ_ne_zero t)
      omega
    rw [gmerge_step _ _ _ _ h2, List.flatten_append]
    have hQf1 : ∀ a b, SortedBlock len a → SortedBlock len b → SortedBlock len
        (if asc then merge_and_select a b len true else merge_and_select a b len false) := by
      intro a b ha hb
      cases asc
      · exact sortedBlock_mas_high len a b ha hb
      · exact sortedBlock_mas_low len a b ha hb
    have hQf2 : ∀ a b, SortedBlock len a → SortedBlock len b → SortedBlock len
        (if asc then merge_and_select b a len false else merge_and_select b a len true) := by
      intro a b ha hb
      cases asc
      · exact sortedBlock_mas_low len b a hb ha
      · exact sortedBlock_mas_high len b a hb ha
    have hmemz : ∀ (g : List ℤ → List ℤ → List ℤ),
        (∀ a b, SortedBlock len a → SortedBlock len b → SortedBlock len (g a b)) →
        ∀ z ∈ List.zipWith g (v.take (v.length / 2)) (v.drop (v.length / 2)),
          SortedBlock len z := by
      intro g hg z hz
      obtain ⟨a, ha, b, hb, rfl⟩ := mem_zipWith hz
      exact hg a b (hQ a (List.mem_of_mem_take ha)) (hQ b (List.mem_of_mem_drop hb))
    have hlen : ∀ (g : List ℤ → List ℤ → List ℤ),
        (List.zipWith g (v.take (v.length / 2)) (v.drop (v.length / 2))).length = 2 ^ t := by
      intro g
      simp only [List.length_zipWith, List.length_take, List.length_drop]
      rw [hv, pow_succ]
      omega
    have hp1 := ih _ (hlen _) (hmemz _ hQf1)
    have hp2 := ih _ (hlen _) (hmemz _ hQf2)
    refine (hp1.append hp2).trans ?_
    have hz := zip_union_flatten_perm
      (fun a b => if asc then merge_and_select a b len true else merge_and_select a b len false)
      (fun a b => if asc then merge_and_select b a len false else merge_and_select b a len true)
      (SortedBlock len) ?_ (v.take (v.length / 2)) (v.drop (v.length / 2)) ?_
      (fun x hx => hQ x (List.mem_of_mem_take hx))
      (fun x hx => hQ x (List.mem_of_mem_drop hx))
    · refine hz.trans ?_
      rw [← List.flatten_append, List.take_append_drop]
    · intro a b ha hb
      have hcomm : mergeLists b a = mergeLists a b := mergeLists_comm hb.1 ha.1
      cases asc
      · show ((mergeLists a b).drop len ++ (mergeLists b a).take len).Perm (a ++ b)
        rw [hcomm]
        refine List.perm_append_comm.trans ?_
        rw [List.take_append_drop]
        exact mergeLists_perm a b
      · show ((mergeLists a b).take len ++ (mergeLists b a).drop len).Perm (a ++ b)
        rw [hcomm, List.take_append_drop]
        exact mergeLists_perm a b
    · simp only [List.length_take, List.length_drop]
      omega

/-- The full bitonic sorting network on blocks preserves the combined
multiset. -/
theorem gsort_flatten_perm (len : ℕ) :
    ∀ (t : ℕ) (asc : Bool) (v : List (List ℤ)), v.length = 2 ^ t →
      (∀ x ∈ v, SortedBlock len x) →
      ((gsort (fun a b => merge_and_select a b len true)
          (fun a b => merge_and_select a b len false) asc v).flatten).Perm v.flatten := by
  intro t
  induction t with
  | zero =>
    intro asc v hv _
    rw [gsort_base _ _ _ _ (by omega)]
  | succ t ih =>
    intro asc v hv hQ
    have h2 : ¬ v.length ≤ 1 := by
      have := Nat.one_lt_two_pow_iff.mpr (Nat.succ_ne_zero t)
      omega
    have htk : (v.take (v.length / 2)).length = 2 ^ t := by
      simp only [List.length_take]
      rw [hv, pow_succ]
      omega
    have hdr : (v.drop (v.length / 2)).length = 2 ^ t := by
      simp only [List.length_drop]
      rw [hv, pow_succ]
      omega
    have hQtk : ∀ x ∈ v.take (v.length / 2), SortedBlock len x :=
      fun x hx => hQ x (List.mem_of_mem_take hx)
    have hQdr : ∀ x ∈ v.drop (v.length / 2), SortedBlock len x :=
      fun x hx => hQ x (List.mem_of_mem_drop hx)
    have hStk : ∀ x ∈ gsort (fun a b => merge_and_select a b len true)
        (fun a b => merge_and_select a b len false) true (v.take (v.length / 2)),
        SortedBlock len x :=
      gsort_invariant (sortedBlock_mas_low len) (sortedBlock_mas_high len) true t _ htk hQtk
    have hSdr : ∀ x ∈ gsort (fun a b => merge_and_select a b len true)
        (fun a b => merge_and_select a b len false) false (v.drop (v.length / 2)),
        SortedBlock len x :=
      gsort_invariant (sortedBlock_mas_low len) (sortedBlock_mas_high len) false t _ hdr hQdr
    have happ : (gsort (fun a b => merge_and_select a b len true)
        (fun a b => merge_and_select a b len false) true (v.take (v.length / 2)) ++
        gsort (fun a b => merge_and_select a b len true)
          (fun a b => merge_and_select a b len false) false
          (v.drop (v.length / 2))).length = 2 ^ (t + 1) := by
      rw [List.length_append, gsort_length _ _ t true _ htk, gsort_length _ _ t false _ hdr,
        htk, hdr, pow_succ]
      omega
    have happQ : ∀ x ∈ gsort (fun a b => merge_and_select a b len true)
        (fun a b => merge_and_select a b len false) true (v.take (v.length / 2)) ++
        gsort (fun a b => merge_and_select a b len true)
          (fun a b => merge_and_select a b len false) false (v.drop (v.length / 2)),
        SortedBlock len x := by
      intro x hx
      rcases List.mem_append.mp hx with hx2 | hx2
      · exact hStk x hx2
      · exact hSdr x hx2
    rw [gsort_step _ _ _ _ h2]
    refine (gmerge_flatten_perm len asc (t + 1) _ happ happQ).trans ?_
    rw [List.flatten_append]
    refine ((ih true _ htk hQtk).append (ih false _ hdr hQdr)).trans ?_
    rw [← List.flatten_append, List.take_append_drop]

/-! ### From descending count staircases to a sorted concatenation -/

/-- If every block is internally sorted and, for every threshold, the
per-block counts form a descending staircase, then the concatenation of
the blocks in order is sorted. -/
theorem flatten_sorted_of_dstair (len : ℕ) (Bs : List (List ℤ))
    (hB : ∀ x ∈ Bs, SortedBlock len x)
    (hD : ∀ c : ℤ, DStair len (Bs.map (countAt c))) :
    Bs.flatten.Sorted (· ≤ ·) := by
  rw [List.Sorted, List.pairwise_flatten]
  refine ⟨fun l hl => (hB l hl).1, ?_⟩
  rw [List.pairwise_iff_getElem]
  intro i j hi hj hij x hx y hy
  have hD2 := hD y
  rw [DStair, List.pairwise_iff_getElem] at hD2
  have hstep := hD2 i j (by simpa using hi) (by simpa using hj) hij
  rw [List.getElem_map, List.getElem_map] at hstep
  have hcj : 0 < countAt y (Bs[j]) := countAt_pos_of_mem hy
  have hci : countAt y (Bs[i]) = len := hstep hcj
  have hleni : (Bs[i]).length = len := (hB _ (List.getElem_mem hi)).2
  exact countAt_eq_length_all_le (by rw [hci, hleni]) x hx

/-- Master correctness of the distributed exchange network: on any list of
`2^m` sorted partitions of a common length, the resulting partitions
concatenate to a sorted permutation of the input concatenation. -/
theorem runNetwork_master (m len : ℕ) (W : List (List ℤ)) (hW : W.length = 2 ^ m)
    (hQ : ∀ x ∈ W, SortedBlock len x) :
    (runNetwork (2 ^ m) len W).flatten.Sorted (· ≤ ·) ∧
      (runNetwork (2 ^ m) len W).flatten.Perm W.flatten := by
  rw [runNetwork_eq_gsort m len W hW]
  refine ⟨?_, gsort_flatten_perm len m true W hW hQ⟩
  refine flatten_sorted_of_dstair len _ ?_ ?_
  · exact gsort_invariant (sortedBlock_mas_low len) (sortedBlock_mas_high len) true m W hW hQ
  · intro c
    have hmap : (gsort (fun a b => merge_and_select a b len true)
        (fun a b => merge_and_select a b len false) true W).map (countAt c) =
        gsort (cntLow len) (cntHigh len) true (W.map (countAt c)) :=
      gsort_map (sortedBlock_mas_low len) (sortedBlock_mas_high len)
        (fun a b ha hb => countAt_mas_low c ha.1 hb.1 len)
        (fun a b ha hb => countAt_mas_high c ha.1 hb.1 len)
        true m W hW hQ
    rw [hmap]
    have hs := cnt_gsort len m true (W.map (countAt c)) (by simp [hW]) ?_
    · rw [StairOf, if_pos rfl] at hs
      exact hs
    · intro z hz
      obtain ⟨w, hw, rfl⟩ := List.mem_map.mp hz
      have h1 := countAt_le_length c w
      have h2 := (hQ w hw).2
      omega

/-! ### The end-to-end pipeline (`bitonicMPI_fixed.c:116-166`) -/

/-- `INT_MAX`, the sentinel used for padding (`bitonicMPI_fixed.c:123`). -/
def intMax : ℤ := 2147483647

/-- The initial global array (`bitonicMPI_fixed.c:121-123`): the `n` input
values followed by `N - n` sentinel entries. -/
def paddedInput (vals : List ℤ) (N : ℕ) : List ℤ :=
  vals ++ List.replicate (N - vals.length) intMax

/-- `MPI_Scatter` (`bitonicMPI_fixed.c:132`): the global array cut into `P`
contiguous chunks of `len` elements, one per rank. -/
def chunksOf (len P : ℕ) (l : List ℤ) : List (List ℤ) :=
  (List.range P).map fun i => (l.drop (i * len)).take len

theorem chunksOf_length (len P : ℕ) (l : List ℤ) : (chunksOf len P l).length = P := by
  simp [chunksOf]

theorem chunksOf_succ (len P : ℕ) (l : List ℤ) :
    chunksOf len (P + 1) l = l.take len :: chunksOf len P (l.drop len) := by
  unfold chunksOf
  rw [List.range_succ_eq_map, List.map_cons, List.map_map]
  congr 1
  · simp
  · apply List.map_congr_left
    intro i _
    simp only [Function.comp_apply]
    rw [List.drop_drop]
    congr 2
    rw [Nat.succ_mul, Nat.mul_comm]
    exact Nat.add_comm _ _

theorem chunksOf_flatten (len : ℕ) :
    ∀ (P : ℕ) (l : List ℤ), l.length = P * len → (chunksOf len P l).flatten = l := by
  intro P
  induction P with
  | zero =>
    intro l hl
    have hnil : l = [] := List.eq_nil_of_length_eq_zero (by omega)
    subst hnil
    rfl
  | succ P ih =>
    intro l hl
    have hmul : (P + 1) * len = P * len + len := by ring
    rw [chunksOf_succ, List.flatten_cons, ih (l.drop len) (by simp; omega)]
    exact List.take_append_drop len l

theorem chunksOf_mem_length (len P : ℕ) (l : List ℤ) (hl : l.length = P * len) :
    ∀ x ∈ chunksOf len P l, x.length = len := by
  intro x hx
  unfold chunksOf at hx
  obtain ⟨i, hi, rfl⟩ := List.mem_map.mp hx
  rw [List.mem_range] at hi
  simp only [List.length_take, List.length_drop]
  have h1 : (i + 1) * len ≤ P * len := Nat.mul_le_mul_right len (by omega)
  have h2 : (i + 1) * len = i * len + len := by ring
  omega

theorem forall2_flatten_perm {R : List ℤ → List ℤ → Prop}
    (hR : ∀ a b, R a b → a.Perm b) :
    ∀ {W C : List (List ℤ)}, List.Forall₂ R W C → W.flatten.Perm C.flatten := by
  intro W C h
  induction h with
  | nil => simp
  | cons hab _ ih =>
    simp only [List.flatten_cons]
    exact (hR _ _ hab).append ih

theorem forall2_sortedBlock (len : ℕ) :
    ∀ {W C : List (List ℤ)},
      List.Forall₂ (fun w c => w.Sorted (· ≤ ·) ∧ w.Perm c) W C →
      (∀ c ∈ C, c.length = len) → ∀ x ∈ W, SortedBlock len x := by
  intro W C h
  induction h with
  | nil =>
    intro _ x hx
    simp at hx
  | cons hab _ ih =>
    intro hC x hx
    rcases List.mem_cons.mp hx with rfl | hx2
    · exact ⟨hab.1, by rw [hab.2.length_eq]; exact hC _ (by simp)⟩
    · exact ih (fun c hc => hC c (by simp [hc])) x hx2

/-- Shared final form: on locally sorted partitions of the padded input,
the reassembled network output is the sorted input values followed by the
sentinel padding. -/
theorem network_final_form (n m : ℕ) (vals : List ℤ) (W : List (List ℤ))
    (hn : 0 < n) (hvlen : vals.length = n) (hbound : ∀ x ∈ vals, x ≤ intMax)
    (hW : List.Forall₂ (fun w c => w.Sorted (· ≤ ·) ∧ w.Perm c) W
      (chunksOf (localSizeOf n (2 ^ m)) (2 ^ m)
        (paddedInput vals (totalSizeOf n (2 ^ m))))) :
    (runNetwork (2 ^ m) (localSizeOf n (2 ^ m)) W).flatten =
      List.insertionSort (· ≤ ·) vals ++
        List.replicate (totalSizeOf n (2 ^ m) - n) intMax := by
  obtain ⟨⟨t, hNpow⟩, hnN, hdvd, _, hloc⟩ := partition_sizer_spec n m hn
  have hlenN : localSizeOf n (2 ^ m) * 2 ^ m = totalSizeOf n (2 ^ m) := by
    rw [hloc]
    exact Nat.div_mul_cancel hdvd
  have hpadlen : (paddedInput vals (totalSizeOf n (2 ^ m))).length =
      2 ^ m * localSizeOf n (2 ^ m) := by
    simp only [paddedInput, List.length_append, List.length_replicate, hvlen]
    rw [Nat.mul_comm, hlenN]
    omega
  have hWlen : W.length = 2 ^ m := by
    rw [hW.length_eq, chunksOf_length]
  have hQ : ∀ x ∈ W, SortedBlock (localSizeOf n (2 ^ m)) x :=
    forall2_sortedBlock _ hW (chunksOf_mem_length _ _ _ hpadlen)
  obtain ⟨hsorted, hperm⟩ := runNetwork_master m (localSizeOf n (2 ^ m)) W hWlen hQ
  have hWflat : W.flatten.Perm (paddedInput vals (totalSizeOf n (2 ^ m))) := by
    refine (forall2_flatten_perm (fun a b h => h.2) hW).trans ?_
    rw [chunksOf_flatten _ _ _ hpadlen]
  have hRperm : (runNetwork (2 ^ m) (localSizeOf n (2 ^ m)) W).flatten.Perm
      (paddedInput vals (totalSizeOf n (2 ^ m))) := hperm.trans hWflat
  refine List.eq_of_perm_of_sorted ?_ hsorted ?_
  · refine hRperm.trans ?_
    unfold paddedInput
    rw [hvlen]
    exact (List.perm_insertionSort (· ≤ ·) vals).symm.append_right _
  · refine List.pairwise_append.mpr ⟨List.sorted_insertionSort (· ≤ ·) vals,
      pairwise_replicate_of intMax le_rfl _, ?_⟩
    intro x hx y hy
    rw [List.eq_of_mem_replicate hy]
    exact hbound x ((List.perm_insertionSort (· ≤ ·) vals).mem_iff.mp hx)

/-- C1: for every `n > 0` and power-of-two process count `P = 2^m ≤ n`,
running the distributed exchange network on the `P` locally-sorted
partitions of the padded input (each partition sorted and a permutation of
its scattered chunk) and concatenating the resulting partitions in rank
order yields a sequence whose first `n` elements are non-decreasing and
form the same multiset as the original `n` input values.  The input values
are machine integers, hence bounded by the sentinel `INT_MAX`. -/
theorem network_pipeline_spec (n m : ℕ) (vals : List ℤ) (W : List (List ℤ))
    (hn : 0 < n) (hvlen : vals.length = n) (hPn : 2 ^ m ≤ n)
    (hbound : ∀ x ∈ vals, x ≤ intMax)
    (hW : List.Forall₂ (fun w c => w.Sorted (· ≤ ·) ∧ w.Perm c) W
      (chunksOf (localSizeOf n (2 ^ m)) (2 ^ m)
        (paddedInput vals (totalSizeOf n (2 ^ m))))) :
    ((runNetwork (2 ^ m) (localSizeOf n (2 ^ m)) W).flatten.take n).Sorted (· ≤ ·) ∧
      ((runNetwork (2 ^ m) (localSizeOf n (2 ^ m)) W).flatten.take n).Perm vals := by
  have hform := network_final_form n m vals W hn hvlen hbound hW
  have hslen : (List.insertionSort (· ≤ ·) vals).length = n := by
    rw [(List.perm_insertionSort (· ≤ ·) vals).length_eq, hvlen]
  rw [hform, List.take_left' hslen]
  exact ⟨List.sorted_insertionSort (· ≤ ·) vals, List.perm_insertionSort (· ≤ ·) vals⟩

/-- C1 witness at `n = 2`, `P = 2^0`, `vals = [3, 1]`, locally sorted
partition `[[1, 3]]`. -/
theorem network_pipeline_spec_witness :
    ((runNetwork (2 ^ 0) (localSizeOf 2 (2 ^ 0)) [[1, 3]]).flatten.take 2).Sorted (· ≤ ·) ∧
      ((runNetwork (2 ^ 0) (localSizeOf 2 (2 ^ 0)) [[1, 3]]).flatten.take 2).Perm
        ([3, 1] : List ℤ) := by
  refine network_pipeline_spec 2 0 [3, 1] [[1, 3]] (by decide) (by decide) (by decide)
    (by decide) ?_
  show List.Forall₂ _ [[1, 3]] [[3, 1]]
  exact List.Forall₂.cons ⟨by decide, by decide⟩ List.Forall₂.nil

theorem getD_map_range {α : Type} (f : ℕ → α) (n r : ℕ) (d : α) (hr : r < n) :
    ((List.range n).map f).getD r d = f r := by
  rw [List.getD_eq_getElem?_getD, List.getElem?_map, List.getElem?_range hr]
  rfl

theorem exchangeRound_length (len k j : ℕ) (V : List (List ℤ)) :
    (exchangeRound len k j V).length = V.length := by
  simp [exchangeRound]

theorem exchangeRound_getD (len k j r : ℕ) (V : List (List ℤ)) (hr : r < V.length) :
    (exchangeRound len k j V).getD r [] =
      merge_and_select (V.getD r []) (V.getD (r ^^^ j) []) len (keep_low r k j) := by
  unfold exchangeRound
  rw [getD_map_range _ _ _ _ hr]

theorem exchangeRound_preserves (len k j m : ℕ) (hj : j < 2 ^ m) (V : List (List ℤ))
    (hV : V.length = 2 ^ m) (h : ∀ x ∈ V, SortedBlock len x) :
    ∀ x ∈ exchangeRound len k j V, SortedBlock len x := by
  intro x hx
  unfold exchangeRound at hx
  obtain ⟨r, hr, rfl⟩ := List.mem_map.mp hx
  rw [List.mem_range] at hr
  have hpartner : r ^^^ j < 2 ^ m := Nat.xor_lt_two_pow (by omega) hj
  have hmem1 : V.getD r [] ∈ V := by
    rw [List.getD_eq_getElem V [] hr]
    exact List.getElem_mem hr
  have hmem2 : V.getD (r ^^^ j) [] ∈ V := by
    have hp2 : r ^^^ j < V.length := by omega
    rw [List.getD_eq_getElem V [] hp2]
    exact List.getElem_mem hp2
  obtain ⟨hs1, hl1⟩ := h _ hmem1
  obtain ⟨hs2, hl2⟩ := h _ hmem2
  exact ⟨merge_and_select_sorted hs1 hs2 len _, merge_and_select_length hl1 hl2 _⟩

theorem fold_rounds_invariant (len m : ℕ) :
    ∀ (js : List (ℕ × ℕ)), (∀ p ∈ js, p.2 < 2 ^ m) → ∀ (W : List (List ℤ)),
      W.length = 2 ^ m → (∀ x ∈ W, SortedBlock len x) →
      (js.foldl (fun V kj => exchangeRound len kj.1 kj.2 V) W).length = 2 ^ m ∧
        ∀ x ∈ js.foldl (fun V kj => exchangeRound len kj.1 kj.2 V) W,
          SortedBlock len x := by
  intro js
  induction js with
  | nil =>
    intro _ W hW hQ
    exact ⟨hW, hQ⟩
  | cons p t ih =>
    intro hmem W hW hQ
    simp only [List.foldl_cons]
    refine ih (fun q hq => hmem q (by simp [hq])) _ ?_ ?_
    · rw [exchangeRound_length, hW]
    · exact exchangeRound_preserves len p.1 p.2 m (hmem p (by simp)) W hW hQ

/-- C4: a rank whose own partition and whose partner's partition are both
sorted runs of length `len` before a round `(k, j)` again holds a sorted
run of length `len` after the round; consequently, starting from sorted
initial partitions (the state produced by the initial local sort), after
any number `t` of schedule rounds every process's partition is internally
sorted in ascending order. -/
theorem sortedness_invariant_spec (len m : ℕ) (W : List (List ℤ))
    (hWlen : W.length = 2 ^ m)
    (hinit : ∀ x ∈ W, x.Sorted (· ≤ ·) ∧ x.length = len) :
    (∀ (V : List (List ℤ)) (k j r : ℕ), r < V.length →
        (V.getD r []).Sorted (· ≤ ·) → (V.getD r []).length = len →
        (V.getD (r ^^^ j) []).Sorted (· ≤ ·) → (V.getD (r ^^^ j) []).length = len →
        ((exchangeRound len k j V).getD r []).Sorted (· ≤ ·) ∧
          ((exchangeRound len k j V).getD r []).length = len) ∧
      ∀ t : ℕ, ∀ x ∈ ((schedule (2 ^ m)).take t).foldl
          (fun V kj => exchangeRound len kj.1 kj.2 V) W,
        x.Sorted (· ≤ ·) ∧ x.length = len := by
  constructor
  · intro V k j r hr hs1 hl1 hs2 hl2
    rw [exchangeRound_getD len k j r V hr]
    exact ⟨merge_and_select_sorted hs1 hs2 len _, merge_and_select_length hl1 hl2 _⟩
  · intro t
    have hmem : ∀ p ∈ (schedule (2 ^ m)).take t, p.2 < 2 ^ m := fun p hp =>
      schedule_pow_mem_snd_lt m p (List.mem_of_mem_take hp)
    exact (fold_rounds_invariant len m _ hmem W hWlen hinit).2

/-- C4 witness: a concrete round on partitions `[[3], [7]]` and the
(empty-schedule) stages from `[[5]]`. -/
theorem sortedness_invariant_spec_witness :
    (((exchangeRound 1 2 1 [[3], [7]]).getD 0 []).Sorted (· ≤ ·) ∧
        ((exchangeRound 1 2 1 [[3], [7]]).getD 0 []).length = 1) ∧
      ∀ x ∈ ((schedule (2 ^ 0)).take 3).foldl
          (fun V kj => exchangeRound 1 kj.1 kj.2 V) [[(5 : ℤ)]],
        x.Sorted (· ≤ ·) ∧ x.length = 1 := by
  have h := sortedness_invariant_spec 1 0 [[(5 : ℤ)]] (by decide) (by decide)
  exact ⟨h.1 [[3], [7]] 2 1 0 (by decide) (by decide) (by decide) (by decide) (by decide),
    h.2 3⟩

end BitonicMPI
